import Mathlib

/-!
A verification development for the transcript reconciliation and assembly
engine of the `transcription` repository: the text joiner (`merge_text`),
the diarization turn normalizers, the interval-overlap speaker resolvers
(naive and time-grid-indexed), the speaker backfill passes, and the
utterance assembly pipeline (`postprocess_segments`).

Numeric times are modelled by exact rationals (`ℚ`).  Python dictionaries
feeding the engine are modelled by explicit record types whose fields carry
a small universe of Python values (`PyVal`).  Fallible Python code (code
that can raise) is modelled by `Except String`.

The namespaces `UtilsFunctions`, `UtilsPostprocess`, `UtilsPipeline` and
`TranscriptionGpu` mirror the source files `src/utils_functions.py`,
`src/transcription/utils_postprocess.py`,
`src/transcription/utils_pipeline.py` and `src/transcription_gpu.py`; the
repository contains several evolving rewrites of the same engine and some
claims span two of them.
-/

namespace Transcription

/-! ## Python string primitives

`str.rstrip` / `str.lstrip` with no argument strip whitespace characters.
Only the ASCII whitespace characters are modelled; none of the statements
below depend on the wider Unicode whitespace set.
-/

def isPySpace (c : Char) : Bool :=
  c = ' ' ∨ c = '\t' ∨ c = '\n' ∨ c = '\r' ∨ c = '\x0b' ∨ c = '\x0c'

def pyLstrip (s : String) : String :=
  ⟨s.data.dropWhile isPySpace⟩

def pyRstrip (s : String) : String :=
  ⟨(s.data.reverse.dropWhile isPySpace).reverse⟩

/-- `str.strip()`: strip both ends. -/
def pyStrip (s : String) : String :=
  pyLstrip (pyRstrip s)

/-! ## Text joiner

`merge_text` from `src/transcription/utils_postprocess.py` lines 9-18 (the
same function is inlined, verbatim, in `src/utils_functions.py` line 329 and
`src/transcription_gpu.py` line 335).  An empty Python string is falsy, so
`if not previous_text` is the emptiness test, realised here by matching on
`getLast?` / `head?` of the trimmed strings' character lists.
-/

/-- The character set of the `last_char in ...` membership test
(utils_postprocess line 16): hyphen-minus, opening parenthesis, opening
square bracket, opening curly brace, straight double and single quote.
(The set contains no em-dash.) -/
def openingChars : List Char := "-([\x7b\"'".toList

/-- The character class of the regex `^[\.\,\!\?\;\:\%\)\]\}]`
(utils_postprocess line 7). -/
def leadingPunctuationChars : List Char := ".,!?;:%)]\x7d".toList

def merge_text (previous_text next_text : String) : String :=
  let p := pyRstrip previous_text
  let n := pyLstrip next_text
  match p.data.getLast?, n.data.head? with
  | none, _ => n                -- if not previous_text: return next_text
  | some _, none => p           -- if not next_text: return previous_text
  | some last_char, some first_char =>
      if last_char ∈ openingChars then p ++ n
      else if first_char ∈ leadingPunctuationChars then p ++ n
      else p ++ " " ++ n

/-! ## Speaker turns and the naive overlap resolver -/

/-- `SpeakerSegment` from `utils_types.py`: one diarization turn.  The Python
field `end` is called `stop` here (`end` is a Lean keyword). -/
structure SpeakerSegment where
  start : ℚ
  stop : ℚ
  label : String
deriving DecidableEq, Repr

/-- Specification-side helper: the (signed) length of the intersection of
`[qs, qe)` with the turn, `min qe t.end - max qs t.start`; the turn has
positive overlap with the interval exactly when this is positive. -/
def overlap (qs qe : ℚ) (t : SpeakerSegment) : ℚ :=
  min qe t.stop - max qs t.start

/-- Specification-side helper: the turn's `[start, end)` contains the
midpoint of the query interval. -/
def containsMidpoint (qs qe : ℚ) (t : SpeakerSegment) : Prop :=
  t.start ≤ (qs + qe) / 2 ∧ (qs + qe) / 2 < t.stop

/-- `_default_speaker_for_interval` from `src/utils_functions.py` lines
238-254: linear scan over all turns, keeping the strictly largest overlap. -/
def _default_speaker_for_interval (interval_start interval_end : ℚ)
    (turns : List SpeakerSegment) : Option String :=
  (turns.foldl
    (fun (best : Option String × ℚ) turn =>
      let overlap_start := max interval_start turn.start
      let overlap_end := min interval_end turn.stop
      if overlap_end ≤ overlap_start then best
      else
        let overlap_duration := overlap_end - overlap_start
        if best.2 < overlap_duration then (some turn.label, overlap_duration) else best)
    ((none : Option String), (0 : ℚ))).1

/-! ## The time-grid interval index and the indexed resolver

From `src/transcription/utils_postprocess.py` lines 93-146.  Python
deduplicates candidate turns by object identity (`id(turn)`); object
identity of the rows of the normalized turn list is modelled by each turn's
position in that list, so the index stores `(position, turn)` pairs and the
query tracks visited positions.
-/

def _TIME_GRID_CELL : ℚ := 2

/-- `epsilon` from `_pick_speaker_for_interval` line 120 (`1e-9`). -/
def epsilon : ℚ := 1 / 1000000000

/-- Pair each element with its position, starting at `n`. -/
def enumFrom (n : ℕ) : List α → List (ℕ × α)
  | [] => []
  | t :: ts => (n, t) :: enumFrom (n + 1) ts

/-- `int(turn.start // _TIME_GRID_CELL)` (line 102). -/
def start_cell_of (turn : SpeakerSegment) : ℤ :=
  ⌊turn.start / _TIME_GRID_CELL⌋

/-- `int(ceil(turn.end / _TIME_GRID_CELL))` (line 103). -/
def end_cell_of (turn : SpeakerSegment) : ℤ :=
  ⌈turn.stop / _TIME_GRID_CELL⌉

/-- `_build_turn_index` (lines 93-109): the dictionary mapping each cell
index to the turns registered in it, in registration order.  The dictionary
is modelled as a total function that is `[]` outside its keys (an absent key
and an empty cell list behave identically in the query loop). -/
def _build_turn_index (turns : List SpeakerSegment) : ℤ → List (ℕ × SpeakerSegment) :=
  (enumFrom 0 turns).foldl
    (fun turn_index p cell =>
      if start_cell_of p.2 ≤ cell ∧ cell < end_cell_of p.2 then turn_index cell ++ [p]
      else turn_index cell)
    (fun _ => [])

/-- The mutable state of the query loop of `_pick_speaker_for_interval`:
`visited_turn_ids`, `best_label`, `best_overlap`. -/
structure PickState where
  visited : List ℕ
  best_label : Option String
  best_overlap : ℚ
deriving Repr

/-- The body of the inner loop of `_pick_speaker_for_interval`
(lines 134-145), processing one candidate `(id, turn)` pair. -/
def pickStep (interval_start interval_end : ℚ) (st : PickState)
    (p : ℕ × SpeakerSegment) : PickState :=
  if p.1 ∈ st.visited then st
  else
    let visited := p.1 :: st.visited
    let overlap_start := max interval_start p.2.start
    let overlap_end := min interval_end p.2.stop
    if overlap_end ≤ overlap_start then ⟨visited, st.best_label, st.best_overlap⟩
    else
      let overlap_duration := overlap_end - overlap_start
      if st.best_overlap < overlap_duration then ⟨visited, some p.2.label, overlap_duration⟩
      else ⟨visited, st.best_label, st.best_overlap⟩

/-- `range(a, b)` over integers. -/
def cellRange (a b : ℤ) : List ℤ :=
  (List.range (b - a).toNat).map (fun k : ℕ => a + (k : ℤ))

/-- `_pick_speaker_for_interval` (lines 111-146): overlap-maximising query
against the cell index, visiting only the cells covering
`[start, end - epsilon]`. -/
def _pick_speaker_for_interval (interval_start interval_end : ℚ)
    (turn_index : ℤ → List (ℕ × SpeakerSegment)) : Option String :=
  if interval_end ≤ interval_start then none
  else
    let start_cell := ⌊interval_start / _TIME_GRID_CELL⌋
    let end_cell := ⌊(interval_end - epsilon) / _TIME_GRID_CELL⌋ + 1
    ((cellRange start_cell end_cell).foldl
      (fun st cell => (turn_index cell).foldl (pickStep interval_start interval_end) st)
      ⟨[], none, 0⟩).best_label

/-! ## A small universe of Python values

The diarization and alignment records traverse Python code that probes
values with `is None`, `isinstance(x, (int, float))`, `math.isfinite`,
truthiness, `float(...)` and `str(...)`.  `PyVal` carries just enough to
model those probes:

* `num q`   — a finite `int`/`float`, as an exact rational;
* `nf`      — a non-finite float (`inf`, `-inf` or `nan`): passes the
  `isinstance` test, fails `isfinite`;
* `str s`   — a non-numeric string (`float(...)` on it raises `ValueError`);
* `obj`     — any other object: not numeric, `float(...)` raises `TypeError`;
* `none`    — Python `None`.
-/

inductive PyVal where
  | none
  | num (q : ℚ)
  | nf
  | str (s : String)
  | obj
deriving DecidableEq, Repr

/-- The result of a successful `float(...)`: a finite value or a non-finite
float. -/
inductive PyFloat where
  | fin (q : ℚ)
  | nf
deriving DecidableEq, Repr

/-- `float(x)`.  Raises (`Except.error`) on `None`, non-numeric strings and
arbitrary objects. -/
def py_float : PyVal → Except String PyFloat
  | .num q => .ok (.fin q)
  | .nf => .ok .nf
  | .str _ => .error "ValueError: could not convert string to float"
  | .obj => .error "TypeError: float() argument must be a string or a real number"
  | .none => .error "TypeError: float() argument must be a string or a real number"

/-- `isinstance(x, (int, float))`. -/
def is_number : PyVal → Bool
  | .num _ => true
  | .nf => true
  | _ => false

/-- `math.isfinite` on the result of a `float(...)`. -/
def PyFloat.isfinite : PyFloat → Bool
  | .fin _ => true
  | .nf => false

/-- Python truthiness of a value. -/
def py_truthy : PyVal → Bool
  | .none => false
  | .num q => q ≠ 0
  | .nf => true
  | .str s => s ≠ ""
  | .obj => true

/-- `str(x)`.  The exact rendering of non-string values is immaterial to
every statement below (labels are only passed through and compared); an
abstract but injective-enough rendering is used. -/
def py_str : PyVal → String
  | .str s => s
  | .none => "None"
  | .num q => "float " ++ toString q
  | .nf => "nonfinite float"
  | .obj => "object"

/-- `dict.get(key)` for an optionally-present key: absent keys read as
`None`. -/
def getOrNone : Option PyVal → PyVal
  | Option.none => PyVal.none
  | some v => v

/-! ## Diarization inputs

`DiarizationResult` (see `utils_types.py`): one of a pyannote-style object
exposing `itertracks`, a pandas-`DataFrame`-style object exposing
`iterrows`, a plain dict with a `"segments"` list, `None`, or anything
else.  The shapes are probed by capability in
`UtilsFunctions._normalize_diarization_turns`.
-/

/-- One `(time_span, track_id, speaker_label)` triple yielded by
`itertracks(yield_label=True)`; `start`/`end` are read with
`getattr(time_span, "start", None)`, so an absent attribute reads as
`PyVal.none`.  The (unused) track id is not modelled. -/
structure TrackRec where
  start : PyVal
  stop : PyVal
  speaker_label : PyVal
deriving DecidableEq, Repr

/-- One row of a `DataFrame`-style object (also reused for the entries of a
plain `{"segments": [...]}` dict).  `start`/`stop` model `row.get("start")` /
`row.get("end")` (absent key reads as `None`); for `speaker`/`label` key
PRESENCE matters (`row.get("speaker", default)` only falls back to the
default when the key is absent), hence `Option PyVal`. -/
structure RowRec where
  start : PyVal
  stop : PyVal
  speaker : Option PyVal
  label : Option PyVal
deriving DecidableEq, Repr

inductive DiarizationResult where
  | noneV
  | tracks (ts : List TrackRec)
  | rows (rs : List RowRec)
  | dictSegs (rs : List RowRec)
  | unrecognized
deriving DecidableEq, Repr

/-- A raw turn extracted before cleaning: `float(start)`, `float(end)` (which
may be non-finite) and the stringified label. -/
structure RawTurn where
  start : PyFloat
  stop : PyFloat
  label : String
deriving DecidableEq, Repr

/-- `row.get("speaker", row.get("label", "UNKNOWN"))` (utils_functions line
210): two-argument `get`, falling through on absent keys only. -/
def row_label_with_default (r : RowRec) : PyVal :=
  match r.speaker with
  | some v => v
  | Option.none =>
      match r.label with
      | some v => v
      | Option.none => PyVal.str "UNKNOWN"

/-- `row.get("speaker") or row.get("label") or "UNKNOWN"` (utils_functions
line 222, utils_postprocess line 85): falls through on falsy values. -/
def row_label_or_chain (r : RowRec) : PyVal :=
  let a := getOrNone r.speaker
  if py_truthy a then a
  else
    let b := getOrNone r.label
    if py_truthy b then b else PyVal.str "UNKNOWN"

namespace UtilsFunctions

/-- The `itertracks` extraction loop of `_normalize_diarization_turns`
(`src/utils_functions.py` lines 191-198): skip rows whose `start`/`end`
attribute is `None`, then `float(...)` both (which raises on non-convertible
values, aborting the whole call as in Python) and stringify the label. -/
def extract_tracks : List TrackRec → Except String (List RawTurn)
  | [] => .ok []
  | t :: rest =>
      if t.start = PyVal.none ∨ t.stop = PyVal.none then extract_tracks rest
      else do
        let s ← py_float t.start
        let e ← py_float t.stop
        let tail ← extract_tracks rest
        pure (⟨s, e, py_str t.speaker_label⟩ :: tail)

/-- The `iterrows` extraction loop (lines 202-211). -/
def extract_rows : List RowRec → Except String (List RawTurn)
  | [] => .ok []
  | r :: rest =>
      if r.start = PyVal.none ∨ r.stop = PyVal.none then extract_rows rest
      else do
        let s ← py_float r.start
        let e ← py_float r.stop
        let tail ← extract_rows rest
        pure (⟨s, e, py_str (row_label_with_default r)⟩ :: tail)

/-- The plain-dict extraction loop (lines 214-223). -/
def extract_dict : List RowRec → Except String (List RawTurn)
  | [] => .ok []
  | r :: rest =>
      if r.start = PyVal.none ∨ r.stop = PyVal.none then extract_dict rest
      else do
        let s ← py_float r.start
        let e ← py_float r.stop
        let tail ← extract_dict rest
        pure (⟨s, e, py_str (row_label_or_chain r)⟩ :: tail)

/-- The cleaning loop of `_normalize_diarization_turns` (lines 225-233):
drop non-finite times, clamp negative `start` and `end` to `0`, drop
non-positive durations. -/
def clean_turns : List RawTurn → List SpeakerSegment
  | [] => []
  | t :: rest =>
      match t.start, t.stop with
      | .fin s, .fin e =>
          let start_seconds := if s < 0 then 0 else s
          let end_seconds := if e < 0 then 0 else e
          if end_seconds ≤ start_seconds then clean_turns rest
          else ⟨start_seconds, end_seconds, t.label⟩ :: clean_turns rest
      | _, _ => clean_turns rest

end UtilsFunctions

/-- The lexicographic key `(segment.start, segment.end)` used by
`segments.sort(...)` in all normalizers. -/
def turnLe (a b : SpeakerSegment) : Prop :=
  a.start < b.start ∨ (a.start = b.start ∧ a.stop ≤ b.stop)

instance : DecidableRel turnLe := fun a b => by
  unfold turnLe
  infer_instance

instance : IsTotal SpeakerSegment turnLe := by
  constructor
  intro a b
  unfold turnLe
  rcases lt_trichotomy a.start b.start with h | h | h
  · exact Or.inl (Or.inl h)
  · rcases le_total a.stop b.stop with h' | h'
    · exact Or.inl (Or.inr ⟨h, h'⟩)
    · exact Or.inr (Or.inr ⟨h.symm, h'⟩)
  · exact Or.inr (Or.inl h)

instance : IsTrans SpeakerSegment turnLe := by
  constructor
  intro a b c hab hbc
  unfold turnLe at hab hbc ⊢
  rcases hab with h1 | ⟨h1, h1'⟩ <;> rcases hbc with h2 | ⟨h2, h2'⟩
  · exact Or.inl (h1.trans h2)
  · exact Or.inl (h2 ▸ h1)
  · exact Or.inl (h1 ▸ h2)
  · exact Or.inr ⟨h1.trans h2, h1'.trans h2'⟩

/-- `list.sort(key=lambda segment: (segment.start, segment.end))`: Python's
sort is stable; modelled by a stable insertion sort on the lexicographic
key. -/
def sortTurns (turns : List SpeakerSegment) : List SpeakerSegment :=
  List.insertionSort turnLe turns

namespace UtilsFunctions

/-- `_normalize_diarization_turns` from `src/utils_functions.py` lines
171-236 (capability-probing over the three supported shapes, then cleaning
and sorting).  `Except.error` models an escaping exception. -/
def _normalize_diarization_turns : DiarizationResult → Except String (List SpeakerSegment)
  | .noneV => .ok []
  | .tracks ts => (extract_tracks ts).map (fun raw => sortTurns (clean_turns raw))
  | .rows rs => (extract_rows rs).map (fun raw => sortTurns (clean_turns raw))
  | .dictSegs rs => (extract_dict rs).map (fun raw => sortTurns (clean_turns raw))
  | .unrecognized => .ok (sortTurns (clean_turns []))

end UtilsFunctions

namespace TranscriptionGpu

/-- The cleaning loop of `_normalize_diarization_turns` from
`src/transcription_gpu.py` lines 295-302.  Unlike the `utils_functions`
variant, the `end <= start` test is performed BEFORE clamping, and only a
negative `start` is clamped to `0` (the extraction loops are identical to
the `UtilsFunctions` ones). -/
def clean_turns : List RawTurn → List SpeakerSegment
  | [] => []
  | t :: rest =>
      match t.start, t.stop with
      | .fin s, .fin e =>
          if e ≤ s then clean_turns rest
          else
            let start_seconds := if s < 0 then 0 else s
            ⟨start_seconds, e, t.label⟩ :: clean_turns rest
      | _, _ => clean_turns rest

/-- `_normalize_diarization_turns` from `src/transcription_gpu.py` lines
245-305. -/
def _normalize_diarization_turns : DiarizationResult → Except String (List SpeakerSegment)
  | .noneV => .ok []
  | .tracks ts => (UtilsFunctions.extract_tracks ts).map (fun raw => sortTurns (clean_turns raw))
  | .rows rs => (UtilsFunctions.extract_rows rs).map (fun raw => sortTurns (clean_turns raw))
  | .dictSegs rs => (UtilsFunctions.extract_dict rs).map (fun raw => sortTurns (clean_turns raw))
  | .unrecognized => .ok (sortTurns (clean_turns []))

end TranscriptionGpu

namespace UtilsPostprocess

/-- `_normalise_diarisation_turns` from
`src/transcription/utils_postprocess.py` lines 62-91.  This variant accepts
only a pandas `DataFrame` (anything else raises `TranscriptionError`); the
input type is the frame's row list.  Values are probed with
`isinstance(..., (int, float))` BEFORE conversion, so no branch can raise:
the function is total.  Rows whose `start`/`end` is a non-finite float
(`isinstance` passes, `isfinite` fails) are dropped at the `match` below
together with the non-numeric ones. -/
def _normalise_diarisation_turns (rows : List RowRec) : List SpeakerSegment :=
  sortTurns (collect rows)
where
  collect : List RowRec → List SpeakerSegment
  | [] => []
  | r :: rest =>
      if r.start = PyVal.none ∨ r.stop = PyVal.none then collect rest
      else if ¬ (is_number r.start ∧ is_number r.stop) then collect rest
      else
        match r.start, r.stop with
        | .num s, .num e =>
            let start_seconds := if s < 0 then 0 else s
            let end_seconds := if e < 0 then 0 else e
            if end_seconds ≤ start_seconds then collect rest
            else ⟨start_seconds, end_seconds, py_str (row_label_or_chain r)⟩ :: collect rest
        | _, _ => collect rest

end UtilsPostprocess

/-! ## Alignment payloads

`AlignmentResult` is a dict with a `"segments"` list; each segment is a dict
with a `"words"` list; each word is a dict with `"start"`, `"end"`,
`"word"` and optionally `"speaker"`.  The functions below only probe the
`segments` and `words` values for truthiness (`... or []`) and
`isinstance(..., list)`, so those fields are modelled as a list plus two
abstract non-list possibilities (falsy and truthy).  Word and segment
entries themselves are modelled as dicts (records); payloads carrying
non-dict entries in those lists are outside this embedding (none of the
claims quantifies over them).
-/

/-- A word dict.  `speaker` models an optionally present `"speaker"` key
whose value, when present, is a string (`Option.none` covers both an absent
key and a present `None`, which the sources treat identically: both fail
`"speaker" in word and word["speaker"]` and both read back as falsy). -/
structure WordEntry where
  start : PyVal
  stop : PyVal
  word : PyVal
  speaker : Option String
deriving DecidableEq, Repr

/-- `"speaker" in word and word["speaker"]` (an empty string is falsy). -/
def speaker_truthy : Option String → Bool
  | some s => s ≠ ""
  | Option.none => false

/-- The `"words"` value of a segment dict. -/
inductive WordsField where
  | list (ws : List WordEntry)
  | falsyNonList   -- e.g. None, "", {}: `... or []` turns it into []
  | truthyNonList  -- a truthy non-list value
deriving DecidableEq, Repr

structure SegmentRec where
  words : WordsField
deriving DecidableEq, Repr

/-- The `"segments"` value of an alignment payload (an absent key reads as
`None`, which is falsy non-list). -/
inductive SegmentsField where
  | list (segs : List SegmentRec)
  | falsyNonList
  | truthyNonList
deriving DecidableEq, Repr

structure AlignmentResult where
  segments : SegmentsField
deriving DecidableEq, Repr

namespace UtilsPostprocess

/-- The per-segment word loop of `fill_missing_word_speakers`
(`src/transcription/utils_postprocess.py` lines 41-54), threading
`previous_label` and returning the updated word list.  Words with
non-numeric `start`/`end` are skipped unchanged; pre-labelled words only
update `previous_label`; otherwise the indexed resolver is consulted with
the previous label as fallback.  (Words with non-finite float times, which
Python would pass to the resolver, are outside this embedding and fall in
the skip branch; no claim quantifies over them.) -/
def fill_words (turn_index : ℤ → List (ℕ × SpeakerSegment)) :
    List WordEntry → Option String → List WordEntry
  | [], _ => []
  | word :: rest, previous_label =>
      match word.start, word.stop with
      | .num start_value, .num end_value =>
          if speaker_truthy word.speaker then
            -- already labelled: remember and move on (str of a string is itself)
            word :: fill_words turn_index rest word.speaker
          else
            let label := _pick_speaker_for_interval start_value end_value turn_index
            let label := match label, previous_label with
              | Option.none, some p => some p
              | l, _ => l
            match label with
            | Option.none => word :: fill_words turn_index rest previous_label
            | some l => ⟨word.start, word.stop, word.word, some l⟩ ::
                fill_words turn_index rest (some l)
      | _, _ => word :: fill_words turn_index rest previous_label

/-- `fill_missing_word_speakers` from
`src/transcription/utils_postprocess.py` lines 20-54, as a pure function
returning the payload after mutation.  `segments = ... .get("segments") or
[]` makes a falsy non-list value behave as an empty list (no mutation); a
truthy non-list raises `TranscriptionError`.  Segments whose `words` value
is not a list are skipped. -/
def fill_missing_word_speakers (alignment_result : AlignmentResult)
    (diarization_rows : List RowRec) : Except String AlignmentResult :=
  match alignment_result.segments with
  | SegmentsField.truthyNonList =>
      .error "TranscriptionError: alignment_result must contain a segments list"
  | SegmentsField.falsyNonList => .ok alignment_result
  | SegmentsField.list segs =>
      let turns := _normalise_diarisation_turns diarization_rows
      let turn_index := _build_turn_index turns
      .ok ⟨SegmentsField.list (segs.map (fun seg =>
        match seg.words with
        | WordsField.list ws => ⟨WordsField.list (fill_words turn_index ws Option.none)⟩
        | _ => seg))⟩

end UtilsPostprocess

namespace UtilsFunctions

/-- The per-segment word loop of `_fill_missing_word_speakers`
(`src/utils_functions.py` lines 276-286).  Lines 282-283 read

    if label is None and previous_label is not None: label = previous_label
    else: label = previous_label

so BOTH branches overwrite `label` with `previous_label`, discarding
whatever `_default_speaker_for_interval` returned; the `match` below mirrors
the two branches verbatim. -/
def fill_words (turns : List SpeakerSegment) :
    List WordEntry → Option String → List WordEntry
  | [], _ => []
  | word :: rest, previous_label =>
      match word.start, word.stop with
      | .num start_value, .num end_value =>
          if speaker_truthy word.speaker then
            word :: fill_words turns rest word.speaker
          else
            let label := _default_speaker_for_interval start_value end_value turns
            let label := match label, previous_label with
              | Option.none, some p => some p   -- label is None and previous_label is not None
              | _, p => p                       -- else: label = previous_label
            match label with
            | Option.none => word :: fill_words turns rest previous_label
            | some l => ⟨word.start, word.stop, word.word, some l⟩ ::
                fill_words turns rest (some l)
      | _, _ => word :: fill_words turns rest previous_label

/-- `_fill_missing_word_speakers` from `src/utils_functions.py` lines
256-286 as a pure function.  This variant has no `isinstance(words, list)`
guard: iterating a truthy non-list `words` value is modelled as a
`TypeError` (Python raises for non-iterable objects; iterable non-list
objects are outside the embedding). -/
def _fill_missing_word_speakers (alignment_result : AlignmentResult)
    (diarization_result : DiarizationResult) : Except String AlignmentResult :=
  match alignment_result.segments with
  | SegmentsField.truthyNonList =>
      .error "TranscriptionError: alignment_result must contain a segments list"
  | SegmentsField.falsyNonList => do
      let _ ← _normalize_diarization_turns diarization_result
      .ok alignment_result
  | SegmentsField.list segs => do
      let turns ← _normalize_diarization_turns diarization_result
      let segs' ← segs.mapM (fun seg =>
        match seg.words with
        | WordsField.list ws => Except.ok (⟨WordsField.list (fill_words turns ws Option.none)⟩ : SegmentRec)
        | WordsField.falsyNonList => Except.ok seg
        | WordsField.truthyNonList => Except.error "TypeError: object is not iterable")
      .ok ⟨SegmentsField.list segs'⟩

end UtilsFunctions

namespace UtilsPipeline

/-- `_SPEAKER_GAP_THRESHOLD` from `src/transcription/utils_pipeline.py`
line 13. -/
def _SPEAKER_GAP_THRESHOLD : ℚ := 7 / 10

/-- `Utterance` from `utils_types.py` (`end` is called `stop`). -/
structure Utterance where
  start : ℚ
  stop : ℚ
  speaker : String
  text : String
deriving DecidableEq, Repr

/-- A collected well-formed word entry (`postprocess_segments` lines 74-82):
numeric `start`/`end`, string text, and the pass-through `speaker` value. -/
structure NWord where
  start : ℚ
  stop : ℚ
  word : String
  speaker : Option String
deriving DecidableEq, Repr

/-- The word-collection loop of `postprocess_segments` (lines 69-82): keep
only word entries with numeric `start`/`end` and a string `word`, from
segments whose `words` value is a list. -/
def collect_words : List WordEntry → List NWord
  | [] => []
  | w :: rest =>
      match w.start, w.stop, w.word with
      | .num s, .num e, .str t => ⟨s, e, t, w.speaker⟩ :: collect_words rest
      | _, _, _ => collect_words rest

def collect_word_entries (segs : List SegmentRec) : List NWord :=
  match segs with
  | [] => []
  | seg :: rest =>
      (match seg.words with
       | WordsField.list ws => collect_words ws
       | _ => []) ++ collect_word_entries rest

/-- The last element of `w :: ws` (`current_words[-1]`). -/
def lastWord (w : NWord) : List NWord → NWord
  | [] => w
  | x :: xs => lastWord x xs

/-- `_flush_run` (lines 92-104): convert the collected run into one
utterance appended to the accumulator; an empty run flushes nothing and a
run without a speaker flushes as `"UNKNOWN"`. -/
def _flush_run (current_speaker : Option String) (current_words : List NWord)
    (utterances : List Utterance) : List Utterance :=
  match current_words with
  | [] => utterances
  | first :: rest =>
      let speaker := match current_speaker with
        | some s => s
        | Option.none => "UNKNOWN"
      let text := (first :: rest).foldl (fun t w => merge_text t w.word) ""
      utterances ++ [⟨first.start, (lastWord first rest).stop, speaker, pyStrip text⟩]

/-- The first pass of `postprocess_segments` (lines 106-142): the word-run
state machine, with state `(current_speaker, current_words, utterances)`.
The in-place `word_entry["speaker"] = ...` writes hit local copies of the
word dicts (line 81 rebuilds each entry) and never influence a flushed
utterance, so they are not modelled. -/
def first_pass (thr : ℚ) : List NWord → Option String → List NWord →
    List Utterance → List Utterance
  | [], current_speaker, current_words, utterances =>
      _flush_run current_speaker current_words utterances
  | word_entry :: rest, current_speaker, current_words, utterances =>
      if ¬ speaker_truthy word_entry.speaker then
        match current_words with
        | [] => first_pass thr rest (some "UNKNOWN") [word_entry] utterances
        | cw0 :: cwrest =>
            let gap_seconds := max 0 (word_entry.start - (lastWord cw0 cwrest).stop)
            if gap_seconds ≤ thr then
              first_pass thr rest current_speaker ((cw0 :: cwrest) ++ [word_entry]) utterances
            else
              first_pass thr rest (some "UNKNOWN") [word_entry]
                (_flush_run current_speaker (cw0 :: cwrest) utterances)
      else
        let label := match word_entry.speaker with
          | some s => s
          | Option.none => ""   -- unreachable: speaker_truthy requires a present value
        match current_words with
        | [] => first_pass thr rest (some label) [word_entry] utterances
        | cw0 :: cwrest =>
            let gap_seconds := max 0 (word_entry.start - (lastWord cw0 cwrest).stop)
            if some label = current_speaker ∧ gap_seconds ≤ thr then
              first_pass thr rest current_speaker ((cw0 :: cwrest) ++ [word_entry]) utterances
            else
              first_pass thr rest (some label) [word_entry]
                (_flush_run current_speaker (cw0 :: cwrest) utterances)

/-- The second pass of `postprocess_segments` (lines 144-159): merge
chronologically adjacent same-speaker utterances whose gap is at most the
threshold.  `merged_utterances` is kept reversed in the accumulator
(`merged_utterances[-1]` is its head) and restored at the end. -/
def second_merge_pass_loop (thr : ℚ) : List Utterance → List Utterance → List Utterance
  | acc, [] => acc.reverse
  | [], utterance :: rest => second_merge_pass_loop thr [utterance] rest
  | last_utterance :: accrest, utterance :: rest =>
      let gap_seconds := max 0 (utterance.start - last_utterance.stop)
      if utterance.speaker = last_utterance.speaker ∧ gap_seconds ≤ thr then
        second_merge_pass_loop thr
          (⟨last_utterance.start, max last_utterance.stop utterance.stop,
            last_utterance.speaker, merge_text last_utterance.text utterance.text⟩ :: accrest)
          rest
      else second_merge_pass_loop thr (utterance :: last_utterance :: accrest) rest

def second_merge_pass (thr : ℚ) (utterances : List Utterance) : List Utterance :=
  second_merge_pass_loop thr [] utterances

/-- Specification-side predicate (spec §8): adjacent utterances may share a
speaker only across a gap strictly larger than the threshold. -/
def adjOK (thr : ℚ) (a b : Utterance) : Prop :=
  a.speaker = b.speaker → thr < b.start - a.stop

/-- Python `a % b` for rationals (`b > 0` in all uses): the representative
in `[0, b)`. -/
def pymod (a b : ℚ) : ℚ := a - b * ⌊a / b⌋

/-- Zero-pad to two digits (the Python format code 02d, for the values
arising here). -/
def pad2 (n : ℤ) : String :=
  if 0 ≤ n ∧ n < 10 then "0" ++ toString n else toString n

/-- `format_timestamp` from `src/transcription/utils_postprocess.py` lines
56-60 (`int` truncation coincides with `⌊·⌋` on the non-negative values
`total % 3600` and `total % 60`; `int(total // 3600)` is a floor). -/
def format_timestamp (total_seconds : ℚ) : String :=
  let hours := ⌊total_seconds / 3600⌋
  let minutes := ⌊pymod total_seconds 3600 / 60⌋
  let seconds := ⌊pymod total_seconds 60⌋
  pad2 hours ++ ":" ++ pad2 minutes ++ ":" ++ pad2 seconds

/-- One formatted transcript line (line 163). -/
def format_line (u : Utterance) : String :=
  "[" ++ format_timestamp u.start ++ "] " ++ u.speaker ++ ": " ++ u.text

/-- `postprocess_segments` from `src/transcription/utils_pipeline.py` lines
55-166, from the `fill_missing_word_speakers` call on (the preceding
`whisperx.assign_word_speakers` call is an external collaborator and is not
part of this core).  Returns the merged utterance list together with the
formatted transcript body (the final `.encode("utf-8")` is dropped). -/
def postprocess_segments (diarization_rows : List RowRec)
    (alignment_result : AlignmentResult) : Except String (List Utterance × String) := do
  let alignment_result ← UtilsPostprocess.fill_missing_word_speakers alignment_result diarization_rows
  let segments ← match alignment_result.segments with
    | SegmentsField.list segs => Except.ok segs
    | _ => Except.error "TranscriptionError: alignment_result must contain a segments list"
  let word_entries := collect_word_entries segments
  let word_entries := List.insertionSort (fun a b : NWord => a.start ≤ b.start) word_entries
  let utterances := first_pass _SPEAKER_GAP_THRESHOLD word_entries Option.none [] []
  let merged_utterances := second_merge_pass _SPEAKER_GAP_THRESHOLD utterances
  let formatted_lines := merged_utterances.map format_line
  pure (merged_utterances, String.intercalate "\n" formatted_lines)

end UtilsPipeline

/-! ## Specification-side predicates for the remaining claims -/

/-- The combined invariant for the unique-maximum argument on the grid
query: the best overlap never exceeds the maximum `D`, reaching `D` pins the
label, and once the maximum turn's id has been visited the state is exactly
the maximum. -/
def PickInv (D : ℚ) (lab : String) (i₀ : ℕ) (st : PickState) : Prop :=
  (st.best_overlap ≤ D ∧ (st.best_overlap = D → st.best_label = some lab)) ∧
  (i₀ ∈ st.visited → st.best_overlap = D ∧ st.best_label = some lab)

/-- The invariant for the unique-maximum argument on the naive scan. -/
def NaiveInv (D : ℚ) (lab : String) (st : Option String × ℚ) : Prop :=
  st.2 ≤ D ∧ (st.2 = D → st.1 = some lab)

/-- A value the turn normalizer is specified to cope with: missing (`None`)
or numeric (finite or not).  Non-convertible values (`str`/`obj`) make
`float(...)` raise. -/
def val_ok : PyVal → Bool
  | PyVal.none => true
  | PyVal.num _ => true
  | PyVal.nf => true
  | _ => false

/-- Every record of the diarization input has cope-able `start`/`end`
values. -/
def benign_diarization : DiarizationResult → Prop
  | DiarizationResult.tracks ts => ∀ t ∈ ts, val_ok t.start ∧ val_ok t.stop
  | DiarizationResult.rows rs => ∀ r ∈ rs, val_ok r.start ∧ val_ok r.stop
  | DiarizationResult.dictSegs rs => ∀ r ∈ rs, val_ok r.start ∧ val_ok r.stop
  | _ => True

/-- `isinstance(x, str)`. -/
def is_pystr : PyVal → Bool
  | PyVal.str _ => true
  | _ => false

/-- The well-formedness test `postprocess_segments` applies to each word
entry (utils_pipeline lines 79-80): numeric `start` and `end`, string
text. -/
def source_valid_word (w : WordEntry) : Bool :=
  is_number w.start && is_number w.stop && is_pystr w.word

/-- No segment of the payload contributes a valid word. -/
def no_valid_words (segs : List SegmentRec) : Prop :=
  ∀ seg ∈ segs, ∀ ws, seg.words = WordsField.list ws → ∀ w ∈ ws, source_valid_word w = false

/-- The payload's `segments` value is a list. -/
def segments_is_list : AlignmentResult → Bool
  | ⟨SegmentsField.list _⟩ => true
  | _ => false

/-- The frame relation of the speaker backfill on one word record: `start`,
`end` and `word` unchanged, and an already present non-empty speaker never
overwritten. -/
def word_frame (w w' : WordEntry) : Prop :=
  w'.start = w.start ∧ w'.stop = w.stop ∧ w'.word = w.word ∧
    (speaker_truthy w.speaker = true → w'.speaker = w.speaker)

/-- The frame relation on one segment record: a list-valued `words` field
stays a list of frame-related words; any other `words` value is untouched. -/
def seg_frame (s s' : SegmentRec) : Prop :=
  match s.words with
  | WordsField.list ws => ∃ ws', s'.words = WordsField.list ws' ∧ List.Forall₂ word_frame ws ws'
  | w => s'.words = w

/-! ## Helper lemmas -/

/-- Fold invariant: a property preserved by every step holds of the fold. -/
theorem foldl_inv {α β : Type _} (f : β → α → β) (P : β → Prop) :
    ∀ (l : List α) (b : β), P b → (∀ x ∈ l, ∀ st, P st → P (f st x)) →
      P (l.foldl f b) := by
  intro l
  induction l with
  | nil => intro b hb _; exact hb
  | cons x xs ih =>
      intro b hb hstep
      exact ih (f b x) (hstep x (by simp) b hb)
        (fun y hy st hst => hstep y (by simp [hy]) st hst)

/-- `merge_text x "" = x.rstrip()`. -/
theorem merge_text_empty_right (x : String) : merge_text x "" = pyRstrip x := by
  unfold merge_text
  dsimp only
  split
  · rename_i heq
    exact String.ext (by simp [pyLstrip, List.getLast?_eq_none_iff.mp heq])
  · rfl
  · rename_i heq
    simp [pyLstrip] at heq

/-- `merge_text "" x = x.lstrip()`. -/
theorem merge_text_empty_left (x : String) : merge_text "" x = pyLstrip x := by
  unfold merge_text
  rfl

/-! ## C8 and C9: the text joiner -/

/-- C9, counterexample: the claim `join(x, "") == x` fails at `x = "a "`,
where the joiner returns the right-stripped `"a"`. -/
theorem c9_counterexample : merge_text "a " "" ≠ "a " ∧ merge_text "a " "" = "a" := by
  constructor
  · decide
  · decide

/-- C9 (amended): for every string `x`, `join(x, "") = x.rstrip()` (not `x`)
and `join("", x) = x.lstrip()`. -/
theorem c9_join_on_empty (x : String) :
    merge_text x "" = pyRstrip x ∧ merge_text "" x = pyLstrip x :=
  ⟨merge_text_empty_right x, merge_text_empty_left x⟩

/-- C8, counterexample: the em-dash is NOT in the code's opening set
(utils_postprocess line 16), so after an em-dash the joiner
inserts a space, contradicting the claim's no-space rule for the em-dash. -/
theorem c8_counterexample :
    merge_text "—" "a" = "— a" ∧ merge_text "—" "a" ≠ "—" ++ "a" := by
  constructor
  · decide
  · decide

/-- C8 (amended): for trimmed-nonempty fragments, the joiner concatenates
without a space when the previous fragment ends in one of `- ( [ { " '`
(em-dash excluded), or when the next fragment starts with one of
`. , ! ? ; : % ) ] }`; otherwise it inserts exactly one space between the
trimmed fragments. -/
theorem c8_spacing (prev next : String) (c d : Char)
    (hc : (pyRstrip prev).data.getLast? = some c)
    (hd : (pyLstrip next).data.head? = some d) :
    (c ∈ openingChars → merge_text prev next = pyRstrip prev ++ pyLstrip next) ∧
    (c ∉ openingChars → d ∈ leadingPunctuationChars →
      merge_text prev next = pyRstrip prev ++ pyLstrip next) ∧
    (c ∉ openingChars → d ∉ leadingPunctuationChars →
      merge_text prev next = pyRstrip prev ++ " " ++ pyLstrip next) := by
  unfold merge_text
  dsimp only
  rw [hc, hd]
  refine ⟨fun hop => ?_, fun hop hpunct => ?_, fun hop hpunct => ?_⟩
  · simp [hop]
  · simp [hop, hpunct]
  · simp [hop, hpunct]

/-! ## Resolver lemmas -/

/-- If no turn positively overlaps the interval, the linear-scan resolver
returns `none`: the fold never leaves its initial state. -/
theorem default_speaker_none (qs qe : ℚ) (turns : List SpeakerSegment)
    (h : ∀ t ∈ turns, overlap qs qe t ≤ 0) :
    _default_speaker_for_interval qs qe turns = none := by
  unfold _default_speaker_for_interval
  have hfold := foldl_inv
    (fun (best : Option String × ℚ) turn =>
      let overlap_start := max qs turn.start
      let overlap_end := min qe turn.stop
      if overlap_end ≤ overlap_start then best
      else
        let overlap_duration := overlap_end - overlap_start
        if best.2 < overlap_duration then (some turn.label, overlap_duration) else best)
    (fun st => st = ((none : Option String), (0 : ℚ)))
    turns ((none : Option String), (0 : ℚ)) rfl ?_
  · rw [hfold]
  · intro t ht st hst
    subst hst
    have hov := h t ht
    have hle : min qe t.stop ≤ max qs t.start := by
      unfold overlap at hov
      linarith
    simp [hle]

/-- The turn-index dictionary, extensionally: cell `c` holds exactly the
indexed turns whose registration cell range contains `c`, in index order. -/
theorem build_turn_index_eq (turns : List SpeakerSegment) (cell : ℤ) :
    _build_turn_index turns cell =
      (enumFrom 0 turns).filter
        (fun p => decide (start_cell_of p.2 ≤ cell ∧ cell < end_cell_of p.2)) := by
  unfold _build_turn_index
  have haux : ∀ (l : List (ℕ × SpeakerSegment)) (acc : ℤ → List (ℕ × SpeakerSegment)),
      (l.foldl
        (fun turn_index p cell =>
          if start_cell_of p.2 ≤ cell ∧ cell < end_cell_of p.2 then turn_index cell ++ [p]
          else turn_index cell)
        acc) cell
      = acc cell ++ l.filter
          (fun p => decide (start_cell_of p.2 ≤ cell ∧ cell < end_cell_of p.2)) := by
    intro l
    induction l with
    | nil => intro acc; simp
    | cons p l ih =>
        intro acc
        rw [List.foldl_cons, ih, List.filter_cons]
        by_cases hc : start_cell_of p.2 ≤ cell ∧ cell < end_cell_of p.2
        · simp [hc]
        · simp [hc]
  rw [haux]
  simp

theorem mem_enumFrom_le {l : List α} :
    ∀ {n : ℕ} {i : ℕ} {x : α}, (i, x) ∈ enumFrom n l → n ≤ i := by
  induction l with
  | nil => intro n i x h; simp [enumFrom] at h
  | cons a t ih =>
      intro n i x h
      simp only [enumFrom, List.mem_cons] at h
      rcases h with h | h
      · exact le_of_eq (congrArg Prod.fst h).symm
      · exact le_trans (Nat.le_succ n) (ih h)

theorem mem_enumFrom_mem {l : List α} :
    ∀ {n : ℕ} {i : ℕ} {x : α}, (i, x) ∈ enumFrom n l → x ∈ l := by
  induction l with
  | nil => intro n i x h; simp [enumFrom] at h
  | cons a t ih =>
      intro n i x h
      simp only [enumFrom, List.mem_cons] at h
      rcases h with h | h
      · exact List.mem_cons.mpr (Or.inl (congrArg Prod.snd h))
      · exact List.mem_cons.mpr (Or.inr (ih h))

theorem enumFrom_mem_of_mem {l : List α} :
    ∀ {n : ℕ} {x : α}, x ∈ l → ∃ i, (i, x) ∈ enumFrom n l := by
  induction l with
  | nil => intro n x h; simp at h
  | cons a t ih =>
      intro n x h
      rcases List.mem_cons.mp h with h | h
      · exact ⟨n, by simp [enumFrom, h]⟩
      · obtain ⟨i, hi⟩ := ih (n := n + 1) h
        exact ⟨i, by simp [enumFrom, hi]⟩

/-- An index determines the turn it carries: `enumFrom` is functional in its
first components. -/
theorem enumFrom_functional {l : List α} :
    ∀ {n : ℕ} {i : ℕ} {x y : α},
      (i, x) ∈ enumFrom n l → (i, y) ∈ enumFrom n l → x = y := by
  induction l with
  | nil => intro n i x y h; simp [enumFrom] at h
  | cons a t ih =>
      intro n i x y hx hy
      simp only [enumFrom, List.mem_cons] at hx hy
      rcases hx with hx | hx <;> rcases hy with hy | hy
      · rw [(Prod.mk.injEq _ _ _ _ ▸ hx : i = n ∧ x = a).2,
            (Prod.mk.injEq _ _ _ _ ▸ hy : i = n ∧ y = a).2]
      · exfalso
        have h1 : i = n := (Prod.mk.injEq _ _ _ _ ▸ hx : i = n ∧ x = a).1
        have h2 := mem_enumFrom_le hy
        omega
      · exfalso
        have h1 : i = n := (Prod.mk.injEq _ _ _ _ ▸ hy : i = n ∧ y = a).1
        have h2 := mem_enumFrom_le hx
        omega
      · exact ih hx hy

/-- One step of the grid query leaves a `none`-state unchanged when the
candidate has no positive overlap. -/
theorem pickStep_no_overlap (qs qe : ℚ) (p : ℕ × SpeakerSegment)
    (hov : overlap qs qe p.2 ≤ 0) (st : PickState)
    (hst : st.best_label = none ∧ st.best_overlap = 0) :
    (pickStep qs qe st p).best_label = none ∧ (pickStep qs qe st p).best_overlap = 0 := by
  unfold pickStep
  have hle : min qe p.2.stop ≤ max qs p.2.start := by
    unfold overlap at hov
    linarith
  by_cases hv : p.1 ∈ st.visited
  · simp [hv, hst.1, hst.2]
  · simp [hv, hle, hst.1, hst.2]

/-- If no turn positively overlaps the interval, the grid-indexed resolver
returns `none`. -/
theorem pick_speaker_none (qs qe : ℚ) (turns : List SpeakerSegment)
    (h : ∀ t ∈ turns, overlap qs qe t ≤ 0) :
    _pick_speaker_for_interval qs qe (_build_turn_index turns) = none := by
  unfold _pick_speaker_for_interval
  by_cases hq : qe ≤ qs
  · simp [hq]
  · simp only [hq, if_false]
    have hfold := foldl_inv
      (fun st cell => (_build_turn_index turns cell).foldl (pickStep qs qe) st)
      (fun st => st.best_label = none ∧ st.best_overlap = 0)
      (cellRange ⌊qs / _TIME_GRID_CELL⌋ (⌊(qe - epsilon) / _TIME_GRID_CELL⌋ + 1))
      ⟨[], none, 0⟩ ⟨rfl, rfl⟩ ?_
    · exact hfold.1
    · intro cell _ st hst
      exact foldl_inv (pickStep qs qe) (fun st => st.best_label = none ∧ st.best_overlap = 0)
        (_build_turn_index turns cell) st hst
        (fun p hp st' hst' => pickStep_no_overlap qs qe p
          (h p.2 (mem_enumFrom_mem (List.mem_filter.mp (build_turn_index_eq turns cell ▸ hp)).1))
          st' hst')

/-! ## C2: overlap-free midpoint containment is impossible -/

/-- A turn whose `[start, end)` contains the midpoint of a nondegenerate
interval necessarily has positive overlap with it. -/
theorem no_overlap_no_midpoint (qs qe : ℚ) (hq : qs < qe) (t : SpeakerSegment)
    (hov : overlap qs qe t ≤ 0) : ¬ containsMidpoint qs qe t := by
  rintro ⟨h1, h2⟩
  have hm1 : qs < (qs + qe) / 2 := by linarith
  have hm2 : (qs + qe) / 2 < qe := by linarith
  have hle : min qe t.stop ≤ max qs t.start := by
    unfold overlap at hov
    linarith
  have h3 : (qs + qe) / 2 < min qe t.stop := lt_min hm2 h2
  have h4 : max qs t.start ≤ (qs + qe) / 2 := max_le hm1.le h1
  linarith

/-- C2: for a nondegenerate interval positively overlapped by no turn, no
turn contains the interval's midpoint either (the claim's guard cannot
arise), both resolvers return `none`, and — vacuously, as the claim states —
any turn containing the midpoint would have its label returned.  There is no
midpoint fallback in the code; this theorem shows the claim's fallback
situation is extensionally empty, so the claim holds of the code. -/
theorem c2_midpoint_fallback (turns : List SpeakerSegment) (qs qe : ℚ)
    (hq : qs < qe) (hno : ∀ t ∈ turns, overlap qs qe t ≤ 0) :
    (∀ t ∈ turns, ¬ containsMidpoint qs qe t) ∧
    _pick_speaker_for_interval qs qe (_build_turn_index turns) = none ∧
    _default_speaker_for_interval qs qe turns = none ∧
    (∀ t ∈ turns, containsMidpoint qs qe t →
      _pick_speaker_for_interval qs qe (_build_turn_index turns) = some t.label ∧
      _default_speaker_for_interval qs qe turns = some t.label) := by
  refine ⟨fun t ht => no_overlap_no_midpoint qs qe hq t (hno t ht),
    pick_speaker_none qs qe turns hno,
    default_speaker_none qs qe turns hno,
    fun t ht hmid => absurd hmid (no_overlap_no_midpoint qs qe hq t (hno t ht))⟩

/-- C2, witness: interval `(0, 1)` against the single turn `[4, 6)`. -/
theorem c2_midpoint_fallback_witness :
    ((0 : ℚ) < 1) ∧ (∀ t ∈ [(⟨4, 6, "A"⟩ : SpeakerSegment)], overlap 0 1 t ≤ 0) ∧
    ((∀ t ∈ [(⟨4, 6, "A"⟩ : SpeakerSegment)], ¬ containsMidpoint 0 1 t) ∧
     _pick_speaker_for_interval 0 1 (_build_turn_index [⟨4, 6, "A"⟩]) = none ∧
     _default_speaker_for_interval 0 1 [⟨4, 6, "A"⟩] = none ∧
     (∀ t ∈ [(⟨4, 6, "A"⟩ : SpeakerSegment)], containsMidpoint 0 1 t →
       _pick_speaker_for_interval 0 1 (_build_turn_index [⟨4, 6, "A"⟩]) = some t.label ∧
       _default_speaker_for_interval 0 1 [⟨4, 6, "A"⟩] = some t.label)) := by
  have hno : ∀ t ∈ [(⟨4, 6, "A"⟩ : SpeakerSegment)], overlap 0 1 t ≤ 0 := by
    intro t ht
    simp only [List.mem_singleton] at ht
    subst ht
    unfold overlap
    norm_num
  exact ⟨by norm_num, hno, c2_midpoint_fallback [⟨4, 6, "A"⟩] 0 1 (by norm_num) hno⟩

/-! ## C3: the grid-indexed resolver versus the naive resolver -/

/-- The nested cell/candidate loops of the grid query equal one fold over
the concatenated candidate stream. -/
theorem pick_fold_flat (qs qe : ℚ) (idx : ℤ → List (ℕ × SpeakerSegment)) :
    ∀ (cells : List ℤ) (st : PickState),
      cells.foldl (fun st cell => (idx cell).foldl (pickStep qs qe) st) st
        = (cells.bind idx).foldl (pickStep qs qe) st := by
  intro cells
  induction cells with
  | nil => intro st; simp
  | cons c cs ih =>
      intro st
      rw [List.foldl_cons, ih,
        show (c :: cs).bind idx = idx c ++ cs.bind idx from rfl, List.foldl_append]

theorem mem_cellRange {a b c : ℤ} : c ∈ cellRange a b ↔ a ≤ c ∧ c < b := by
  unfold cellRange
  constructor
  · intro h
    obtain ⟨k, hk, hc⟩ := List.mem_map.mp h
    rw [List.mem_range] at hk
    omega
  · intro h
    apply List.mem_map.mpr
    refine ⟨(c - a).toNat, ?_, ?_⟩
    · rw [List.mem_range]
      omega
    · omega

/-- Every candidate pair in the query's stream comes from the indexed turn
list. -/
theorem stream_mem_enum (turns : List SpeakerSegment) (cells : List ℤ) :
    ∀ p ∈ cells.bind (_build_turn_index turns), p ∈ enumFrom 0 turns := by
  intro p hp
  obtain ⟨cell, _, hpc⟩ := List.mem_bind.mp hp
  exact (List.mem_filter.mp (build_turn_index_eq turns cell ▸ hpc)).1

/-- `pickStep` never removes visited ids, and records the processed id. -/
theorem pickStep_visited (qs qe : ℚ) (st : PickState) (p : ℕ × SpeakerSegment) :
    st.visited ⊆ (pickStep qs qe st p).visited ∧ p.1 ∈ (pickStep qs qe st p).visited := by
  unfold pickStep
  by_cases hv : p.1 ∈ st.visited
  · simp [hv]
  · simp only [hv, if_false]
    split
    · exact ⟨List.subset_cons_self _ _, List.mem_cons_self _ _⟩
    · split
      · exact ⟨List.subset_cons_self _ _, List.mem_cons_self _ _⟩
      · exact ⟨List.subset_cons_self _ _, List.mem_cons_self _ _⟩

theorem pick_fold_visited_mono (qs qe : ℚ) :
    ∀ (l : List (ℕ × SpeakerSegment)) (st : PickState),
      st.visited ⊆ (l.foldl (pickStep qs qe) st).visited := by
  intro l
  induction l with
  | nil => intro st; exact fun x hx => hx
  | cons p rest ih =>
      intro st
      exact fun x hx => ih (pickStep qs qe st p) ((pickStep_visited qs qe st p).1 hx)

/-- Every streamed candidate's id ends up visited. -/
theorem pick_fold_visits (qs qe : ℚ) :
    ∀ (l : List (ℕ × SpeakerSegment)) (st : PickState) (p : ℕ × SpeakerSegment),
      p ∈ l → p.1 ∈ (l.foldl (pickStep qs qe) st).visited := by
  intro l
  induction l with
  | nil => intro st p hp; simp at hp
  | cons q rest ih =>
      intro st p hp
      rcases List.mem_cons.mp hp with hp | hp
      · subst hp
        exact pick_fold_visited_mono qs qe rest (pickStep qs qe st p)
          ((pickStep_visited qs qe st p).2)
      · exact ih (pickStep qs qe st q) p hp

theorem pickStep_inv (qs qe D : ℚ) (t₀ : SpeakerSegment) (i₀ : ℕ)
    (hD : D = overlap qs qe t₀) (hpos : 0 < D)
    (p : ℕ × SpeakerSegment)
    (hple : overlap qs qe p.2 ≤ D)
    (hplab : overlap qs qe p.2 = D → p.2.label = t₀.label)
    (hpi : p.1 = i₀ → p.2 = t₀)
    (st : PickState) (hst : PickInv D t₀.label i₀ st) :
    PickInv D t₀.label i₀ (pickStep qs qe st p) := by
  obtain ⟨⟨hle, hpin⟩, hvis⟩ := hst
  unfold pickStep
  by_cases hv : p.1 ∈ st.visited
  · simpa [hv] using ⟨⟨hle, hpin⟩, hvis⟩
  · simp only [hv, if_false]
    have hd : min qe p.2.stop - max qs p.2.start = overlap qs qe p.2 := rfl
    by_cases hskip : min qe p.2.stop ≤ max qs p.2.start
    · simp only [hskip, if_true]
      refine ⟨⟨hle, hpin⟩, ?_⟩
      intro hi
      rcases List.mem_cons.mp hi with hi | hi
      · exfalso
        have ht : p.2 = t₀ := hpi hi.symm
        rw [ht] at hskip
        have : overlap qs qe t₀ ≤ 0 := by
          unfold overlap
          linarith
        rw [← hD] at this
        linarith
      · exact hvis hi
    · simp only [hskip, if_false]
      by_cases hupd : st.best_overlap < min qe p.2.stop - max qs p.2.start
      · simp only [hupd, if_true]
        have hdle : min qe p.2.stop - max qs p.2.start ≤ D := by rw [hd]; exact hple
        refine ⟨⟨hdle, ?_⟩, ?_⟩
        · intro hdeq
          rw [hd] at hdeq
          exact congrArg some (hplab hdeq)
        · intro hi
          rcases List.mem_cons.mp hi with hi | hi
          · have ht : p.2 = t₀ := hpi hi.symm
            have hdeq : min qe p.2.stop - max qs p.2.start = D := by
              rw [hd, ht, hD]
            exact ⟨hdeq, by rw [hdeq] at hdle ⊢; exact congrArg some (hplab (hd ▸ hdeq))⟩
          · exfalso
            obtain ⟨hoD, _⟩ := hvis hi
            rw [hoD] at hupd
            have : min qe p.2.stop - max qs p.2.start ≤ D := by rw [hd]; exact hple
            linarith
      · simp only [hupd, if_false]
        refine ⟨⟨hle, hpin⟩, ?_⟩
        intro hi
        rcases List.mem_cons.mp hi with hi | hi
        · have ht : p.2 = t₀ := hpi hi.symm
          have hdeq : min qe p.2.stop - max qs p.2.start = D := by rw [hd, ht, hD]
          have : st.best_overlap = D := le_antisymm hle (by rw [← hdeq]; exact le_of_not_lt hupd)
          exact ⟨this, hpin this⟩
        · exact hvis hi

/-- The registration cell chosen for the maximum turn lies in the query's
cell range and carries the turn, provided both the query start and the
turn's start sit at least `epsilon` below the query end. -/
theorem max_turn_in_stream (qs qe : ℚ) (turns : List SpeakerSegment)
    (t₀ : SpeakerSegment) (i₀ : ℕ) (hi : (i₀, t₀) ∈ enumFrom 0 turns)
    (hpos : 0 < overlap qs qe t₀)
    (hqs : qs + epsilon ≤ qe) (hstart : t₀.start + epsilon ≤ qe) :
    (i₀, t₀) ∈ (cellRange ⌊qs / _TIME_GRID_CELL⌋ (⌊(qe - epsilon) / _TIME_GRID_CELL⌋ + 1)).bind
      (_build_turn_index turns) := by
  have hts : max qs t₀.start < min qe t₀.stop := by
    unfold overlap at hpos
    linarith
  have hqs_lt_te : qs < t₀.stop := lt_of_le_of_lt (le_max_left _ _) (lt_of_lt_of_le hts (min_le_right _ _))
  have hts_lt_te : t₀.start < t₀.stop := lt_of_le_of_lt (le_max_right _ _) (lt_of_lt_of_le hts (min_le_right _ _))
  refine List.mem_bind.mpr ⟨max ⌊qs / _TIME_GRID_CELL⌋ (start_cell_of t₀), ?_, ?_⟩
  · refine mem_cellRange.mpr ⟨le_max_left _ _, ?_⟩
    have h1 : ⌊qs / _TIME_GRID_CELL⌋ ≤ ⌊(qe - epsilon) / _TIME_GRID_CELL⌋ := by
      apply Int.floor_le_floor
      unfold _TIME_GRID_CELL
      linarith
    have h2 : start_cell_of t₀ ≤ ⌊(qe - epsilon) / _TIME_GRID_CELL⌋ := by
      apply Int.floor_le_floor
      unfold _TIME_GRID_CELL
      linarith
    omega
  · rw [build_turn_index_eq]
    refine List.mem_filter.mpr ⟨hi, ?_⟩
    have h3 : ⌊qs / _TIME_GRID_CELL⌋ < end_cell_of t₀ := by
      rw [end_cell_of, Int.lt_ceil]
      calc (⌊qs / _TIME_GRID_CELL⌋ : ℚ) ≤ qs / _TIME_GRID_CELL := Int.floor_le _
        _ < t₀.stop / _TIME_GRID_CELL := by
            unfold _TIME_GRID_CELL
            linarith
    have h4 : start_cell_of t₀ < end_cell_of t₀ := by
      rw [start_cell_of, end_cell_of, Int.lt_ceil]
      calc (⌊t₀.start / _TIME_GRID_CELL⌋ : ℚ) ≤ t₀.start / _TIME_GRID_CELL := Int.floor_le _
        _ < t₀.stop / _TIME_GRID_CELL := by
            unfold _TIME_GRID_CELL
            linarith
    simp only [decide_eq_true_eq]
    omega

/-- The grid-indexed resolver returns the label of a unique maximal
positively-overlapping turn, provided the query interval is at least
`epsilon` long and the turn starts at least `epsilon` before the query
end (so that its cells are actually scanned). -/
theorem pick_speaker_unique_max (qs qe : ℚ) (turns : List SpeakerSegment)
    (t₀ : SpeakerSegment) (hmem : t₀ ∈ turns)
    (hpos : 0 < overlap qs qe t₀)
    (hqs : qs + epsilon ≤ qe) (hstart : t₀.start + epsilon ≤ qe)
    (hmax : ∀ t ∈ turns, t ≠ t₀ → overlap qs qe t < overlap qs qe t₀) :
    _pick_speaker_for_interval qs qe (_build_turn_index turns) = some t₀.label := by
  obtain ⟨i₀, hi₀⟩ := enumFrom_mem_of_mem (n := 0) hmem
  have heps : (0 : ℚ) < epsilon := by unfold epsilon; norm_num
  have hq : ¬ qe ≤ qs := by linarith
  unfold _pick_speaker_for_interval
  simp only [hq, if_false]
  rw [pick_fold_flat]
  set D := overlap qs qe t₀ with hD
  set L := (cellRange ⌊qs / _TIME_GRID_CELL⌋ (⌊(qe - epsilon) / _TIME_GRID_CELL⌋ + 1)).bind
    (_build_turn_index turns) with hL
  have hstream : ∀ p ∈ L, p ∈ enumFrom 0 turns := stream_mem_enum turns _
  have hinv : PickInv D t₀.label i₀ (L.foldl (pickStep qs qe) ⟨[], none, 0⟩) := by
    apply foldl_inv (pickStep qs qe) (PickInv D t₀.label i₀) L ⟨[], none, 0⟩
    · exact ⟨⟨le_of_lt hpos, fun h => absurd (show (0 : ℚ) = D from h) (ne_of_lt hpos)⟩,
        fun h => absurd h (List.not_mem_nil i₀)⟩
    · intro p hp st hst
      have hpe : p ∈ enumFrom 0 turns := hstream p hp
      have hpt : p.2 ∈ turns := mem_enumFrom_mem hpe
      have hpi : p.1 = i₀ → p.2 = t₀ := by
        intro h
        exact enumFrom_functional (h ▸ hpe) hi₀
      have hple : overlap qs qe p.2 ≤ D := by
        by_cases hp0 : p.2 = t₀
        · rw [hp0]
        · exact le_of_lt (hmax p.2 hpt hp0)
      have hplab : overlap qs qe p.2 = D → p.2.label = t₀.label := by
        intro h
        by_cases hp0 : p.2 = t₀
        · rw [hp0]
        · exact absurd h (ne_of_lt (hmax p.2 hpt hp0))
      exact pickStep_inv qs qe D t₀ i₀ hD hpos p hple hplab hpi st hst
  have hvisit : i₀ ∈ (L.foldl (pickStep qs qe) ⟨[], none, 0⟩).visited := by
    have hin : (i₀, t₀) ∈ L := max_turn_in_stream qs qe turns t₀ i₀ hi₀ hpos hqs hstart
    exact pick_fold_visits qs qe L ⟨[], none, 0⟩ (i₀, t₀) hin
  exact (hinv.2 hvisit).2

/-- The linear-scan resolver returns the label of a unique maximal
positively-overlapping turn. -/
theorem default_speaker_unique_max (qs qe : ℚ) (turns : List SpeakerSegment)
    (t₀ : SpeakerSegment) (hmem : t₀ ∈ turns)
    (hpos : 0 < overlap qs qe t₀)
    (hmax : ∀ t ∈ turns, t ≠ t₀ → overlap qs qe t < overlap qs qe t₀) :
    _default_speaker_for_interval qs qe turns = some t₀.label := by
  have hts : max qs t₀.start < min qe t₀.stop := by
    unfold overlap at hpos
    linarith
  set D := overlap qs qe t₀ with hD
  set f := fun (best : Option String × ℚ) (turn : SpeakerSegment) =>
      let overlap_start := max qs turn.start
      let overlap_end := min qe turn.stop
      if overlap_end ≤ overlap_start then best
      else
        let overlap_duration := overlap_end - overlap_start
        if best.2 < overlap_duration then (some turn.label, overlap_duration) else best
    with hf
  have hstep_inv : ∀ t, overlap qs qe t ≤ D → (overlap qs qe t = D → t.label = t₀.label) →
      ∀ st, NaiveInv D t₀.label st → NaiveInv D t₀.label (f st t) := by
    intro t hle hlab st hst
    obtain ⟨h1, h2⟩ := hst
    rw [hf]
    dsimp only
    by_cases hskip : min qe t.stop ≤ max qs t.start
    · simpa [hskip] using ⟨h1, h2⟩
    · simp only [hskip, if_false]
      by_cases hupd : st.2 < min qe t.stop - max qs t.start
      · have hd : min qe t.stop - max qs t.start = overlap qs qe t := rfl
        simp only [hupd, if_true]
        exact ⟨by rw [hd]; exact hle, fun h => congrArg some (hlab (by rw [← hd]; exact h))⟩
      · simpa [hupd] using ⟨h1, h2⟩
  have hstep_keep : ∀ t, overlap qs qe t ≤ D →
      ∀ st, (st.2 = D ∧ st.1 = some t₀.label) → (f st t).2 = D ∧ (f st t).1 = some t₀.label := by
    intro t hle st hst
    obtain ⟨h1, h2⟩ := hst
    rw [hf]
    dsimp only
    by_cases hskip : min qe t.stop ≤ max qs t.start
    · simpa [hskip] using ⟨h1, h2⟩
    · have hd : min qe t.stop - max qs t.start = overlap qs qe t := rfl
      have : ¬ st.2 < min qe t.stop - max qs t.start := by
        rw [hd, h1]
        exact not_lt.mpr hle
      simpa [hskip, this] using ⟨h1, h2⟩
  obtain ⟨l₁, l₂, hsplit⟩ := List.append_of_mem hmem
  have hl₁ : ∀ t ∈ l₁, t ∈ turns := by
    intro t ht
    rw [hsplit]
    exact List.mem_append.mpr (Or.inl ht)
  have hl₂ : ∀ t ∈ l₂, t ∈ turns := by
    intro t ht
    rw [hsplit]
    exact List.mem_append.mpr (Or.inr (List.mem_cons.mpr (Or.inr ht)))
  have hboundlab : ∀ t ∈ turns, overlap qs qe t ≤ D ∧
      (overlap qs qe t = D → t.label = t₀.label) := by
    intro t ht
    by_cases h : t = t₀
    · subst h
      exact ⟨le_refl _, fun _ => rfl⟩
    · exact ⟨le_of_lt (hmax t ht h), fun hEq => absurd hEq (ne_of_lt (hmax t ht h))⟩
  unfold _default_speaker_for_interval
  rw [hsplit, List.foldl_append, List.foldl_cons]
  have hIinit : NaiveInv D t₀.label ((none : Option String), (0 : ℚ)) :=
    ⟨le_of_lt hpos, fun h => absurd (show (0 : ℚ) = D from h) (ne_of_lt hpos)⟩
  have hI1 : NaiveInv D t₀.label (l₁.foldl f ((none : Option String), (0 : ℚ))) := by
    apply foldl_inv f (NaiveInv D t₀.label) l₁ _ hIinit
    intro x hx st hst
    exact hstep_inv x (hboundlab x (hl₁ x hx)).1 (hboundlab x (hl₁ x hx)).2 st hst
  have hmid : (f (l₁.foldl f ((none : Option String), (0 : ℚ))) t₀).2 = D ∧
      (f (l₁.foldl f ((none : Option String), (0 : ℚ))) t₀).1 = some t₀.label := by
    set st := l₁.foldl f ((none : Option String), (0 : ℚ)) with hstdef
    obtain ⟨h1, h2⟩ := hI1
    rw [hf]
    dsimp only
    have hd : min qe t₀.stop - max qs t₀.start = D := by rw [hD]; rfl
    have hskip : ¬ min qe t₀.stop ≤ max qs t₀.start := not_le.mpr hts
    rw [if_neg hskip]
    by_cases hupd : st.2 < min qe t₀.stop - max qs t₀.start
    · rw [if_pos hupd]
      exact ⟨hd, rfl⟩
    · rw [if_neg hupd]
      have hEq : st.2 = D := by
        have hge := le_of_not_lt hupd
        rw [hd] at hge
        exact le_antisymm h1 hge
      exact ⟨hEq, h2 hEq⟩
  have hfinal := foldl_inv f (fun st => st.2 = D ∧ st.1 = some t₀.label) l₂ _ hmid
    (fun x hx st hst => hstep_keep x (hboundlab x (hl₂ x hx)).1 st hst)
  exact hfinal.2

/-! ## C3's theorem and counterexample -/

/-- C3 (amended): when a unique turn with maximal positive overlap exists,
the grid-indexed resolver agrees with the naive linear scan and both return
that turn's label — PROVIDED the query is at least `epsilon = 1e-9` long and
the maximal turn starts at least `epsilon` before the query end (the query
scans cells only up to `end - epsilon`, so turns overlapping the interval
solely within its last `epsilon` can be missed, see the counterexample);
and unconditionally both return `None` when no turn has positive overlap. -/
theorem c3_grid_vs_naive (turns : List SpeakerSegment) (qs qe : ℚ) :
    (∀ t₀ ∈ turns, 0 < overlap qs qe t₀ → qs + epsilon ≤ qe → t₀.start + epsilon ≤ qe →
      (∀ t ∈ turns, t ≠ t₀ → overlap qs qe t < overlap qs qe t₀) →
      _pick_speaker_for_interval qs qe (_build_turn_index turns)
          = _default_speaker_for_interval qs qe turns ∧
      _pick_speaker_for_interval qs qe (_build_turn_index turns) = some t₀.label) ∧
    ((∀ t ∈ turns, overlap qs qe t ≤ 0) →
      _pick_speaker_for_interval qs qe (_build_turn_index turns) = none ∧
      _default_speaker_for_interval qs qe turns = none) := by
  constructor
  · intro t₀ hmem hpos hqs hstart hmax
    have h1 := pick_speaker_unique_max qs qe turns t₀ hmem hpos hqs hstart hmax
    have h2 := default_speaker_unique_max qs qe turns t₀ hmem hpos hmax
    exact ⟨h1.trans h2.symm, h1⟩
  · intro hno
    exact ⟨pick_speaker_none qs qe turns hno, default_speaker_none qs qe turns hno⟩

/-- C3, counterexample: for the query interval `(0, 10⁻¹²)` (positive
length, below `epsilon`) against the single turn `[0, 5)` — which is then
the unique turn of maximal positive overlap — the naive resolver returns
`"A"` while the grid-indexed resolver returns `None`: the cell range
`range(0, int((qe - 1e-9) // 2.0) + 1) = range(0, 0)` is empty. -/
theorem c3_counterexample :
    0 < overlap 0 (1 / 1000000000000) ⟨0, 5, "A"⟩ ∧
    _default_speaker_for_interval 0 (1 / 1000000000000) [⟨0, 5, "A"⟩] = some "A" ∧
    _pick_speaker_for_interval 0 (1 / 1000000000000)
      (_build_turn_index [⟨0, 5, "A"⟩]) = none := by
  refine ⟨?_, ?_, ?_⟩
  · unfold overlap
    norm_num
  · unfold _default_speaker_for_interval
    norm_num
  · unfold _pick_speaker_for_interval
    norm_num [epsilon, _TIME_GRID_CELL]
    simp [cellRange]

/-- C3, witness: instantiating the unique-maximum half of `c3_grid_vs_naive`
at the turn `[0, 2)ᴬ` and query `(0, 1)`. -/
theorem c3_grid_vs_naive_witness :
    _pick_speaker_for_interval 0 1 (_build_turn_index [⟨0, 2, "A"⟩])
        = _default_speaker_for_interval 0 1 [⟨0, 2, "A"⟩] ∧
    _pick_speaker_for_interval 0 1 (_build_turn_index [⟨0, 2, "A"⟩]) = some "A" :=
  (c3_grid_vs_naive [⟨0, 2, "A"⟩] 0 1).1 ⟨0, 2, "A"⟩ (by simp)
    (by unfold overlap; norm_num)
    (by unfold epsilon; norm_num)
    (by unfold epsilon; norm_num)
    (by intro t ht hne; simp at ht; exact absurd ht hne)

/-! ## C4: the second merge pass guarantees the adjacency invariant -/

/-- Every state of the second-pass loop whose (reversed) accumulator
satisfies the adjacency invariant leads to an output satisfying it. -/
theorem second_pass_loop_chain (thr : ℚ) (hthr : 0 ≤ thr) :
    ∀ (input acc : List UtilsPipeline.Utterance),
      List.Chain' (flip (UtilsPipeline.adjOK thr)) acc →
      List.Chain' (UtilsPipeline.adjOK thr)
        (UtilsPipeline.second_merge_pass_loop thr acc input) := by
  intro input
  induction input with
  | nil =>
      intro acc hacc
      simpa [UtilsPipeline.second_merge_pass_loop, List.chain'_reverse] using hacc
  | cons u rest ih =>
      intro acc hacc
      match acc with
      | [] =>
          simp only [UtilsPipeline.second_merge_pass_loop]
          exact ih [u] (by simp)
      | last :: accrest =>
          simp only [UtilsPipeline.second_merge_pass_loop]
          split

          · rename_i hcond
            apply ih
            rw [List.chain'_cons'] at hacc ⊢
            refine ⟨?_, hacc.2⟩
            intro y hy
            have h := hacc.1 y hy
            intro hsp
            exact h hsp
          · rename_i hcond
            apply ih
            rw [List.chain'_cons']
            refine ⟨?_, hacc⟩
            intro y hy
            simp only [List.head?_cons, Option.mem_def, Option.some.injEq] at hy
            subst hy
            intro hsp
            -- the branch condition failed and the speakers agree, so the gap
            -- (clamped at 0) exceeds the threshold; with 0 ≤ thr the raw gap does
            have hgap : ¬ max 0 (u.start - last.stop) ≤ thr := by
              intro hle
              exact hcond ⟨hsp.symm, hle⟩
            have hmax : thr < max 0 (u.start - last.stop) := lt_of_not_ge hgap
            rcases le_or_lt (u.start - last.stop) 0 with h0 | h0
            · exact absurd (le_trans (max_le le_rfl h0) hthr) hgap
            · calc thr < max 0 (u.start - last.stop) := hmax
                _ = u.start - last.stop := max_eq_right h0.le

/-- C4: every utterance list produced by the second merge pass satisfies the
no-adjacent-duplicate-speaker invariant: adjacent utterances with equal
speakers are separated by a gap strictly larger than the threshold. -/
theorem c4_second_pass_invariant (thr : ℚ) (hthr : 0 ≤ thr)
    (utterances : List UtilsPipeline.Utterance) :
    List.Chain' (UtilsPipeline.adjOK thr)
      (UtilsPipeline.second_merge_pass thr utterances) :=
  second_pass_loop_chain thr hthr utterances [] (by simp)

/-- C4, witness: the invariant at the pipeline's threshold `0.7` on a
two-utterance input that the pass merges. -/
theorem c4_second_pass_invariant_witness :
    List.Chain' (UtilsPipeline.adjOK (7 / 10))
      (UtilsPipeline.second_merge_pass (7 / 10)
        [⟨0, 1, "SPEAKER_00", "hi"⟩, ⟨1.2, 2, "SPEAKER_00", "there"⟩,
         ⟨2.1, 3, "SPEAKER_01", "yes"⟩]) :=
  c4_second_pass_invariant (7 / 10) (by norm_num)
    [⟨0, 1, "SPEAKER_00", "hi"⟩, ⟨1.2, 2, "SPEAKER_00", "there"⟩,
     ⟨2.1, 3, "SPEAKER_01", "yes"⟩]

/-! ## C5: invariants of the diarization turn normalizers -/

/-- Every turn collected by the `utils_postprocess` normalizer has a
non-negative start and a positive duration: the record is dropped when
`end <= start` AFTER clamping both negative times to `0`. -/
theorem normalise_collect_invariant (rows : List RowRec) :
    ∀ t ∈ UtilsPostprocess._normalise_diarisation_turns.collect rows,
      0 ≤ t.start ∧ t.start < t.stop := by
  induction rows with
  | nil =>
      intro t ht
      simp [UtilsPostprocess._normalise_diarisation_turns.collect] at ht
  | cons r rest ih =>
      intro t ht
      rw [UtilsPostprocess._normalise_diarisation_turns.collect] at ht
      split at ht
      · exact ih t ht
      · split at ht
        · exact ih t ht
        · split at ht
          · rename_i s e hseq heeq
            dsimp only at ht
            set s' := (if s < 0 then 0 else s : ℚ) with hs'
            set e' := (if e < 0 then 0 else e : ℚ) with he'
            have hs0 : 0 ≤ s' := by
              rw [hs']
              split
              · exact le_refl 0
              · rename_i h
                exact le_of_not_lt h
            split at ht
            · exact ih t ht
            · rename_i hgt
              rcases List.mem_cons.mp ht with h | h
              · subst h
                exact ⟨hs0, lt_of_not_le hgt⟩
              · exact ih t h
          · exact ih t ht

/-- The `utils_postprocess` normalizer's output is sorted by
`(start, end)`. -/
theorem normalise_sorted (rows : List RowRec) :
    List.Sorted turnLe (UtilsPostprocess._normalise_diarisation_turns rows) :=
  List.sorted_insertionSort turnLe _

/-- C5: the `transcription_gpu` normalizer violates the claimed invariant —
fed the single record `{start: -5, end: -1, speaker: "A"}` (as a plain
diarization dict) it emits the turn `(0, -1)` with `end < start`, because it
tests `end <= start` BEFORE clamping and clamps only `start`; the
`utils_postprocess` normalizer satisfies the claim: all outputs have
`start ≥ 0` and `end > start`, sorted ascending by `(start, end)`. -/
theorem c5_normalizer_invariants :
    (TranscriptionGpu._normalize_diarization_turns
        (DiarizationResult.dictSegs [⟨PyVal.num (-5), PyVal.num (-1), some (PyVal.str "A"), Option.none⟩])
      = .ok [⟨0, -1, "A"⟩] ∧
     ∀ t ∈ [(⟨0, -1, "A"⟩ : SpeakerSegment)], ¬ t.start < t.stop) ∧
    ∀ rows : List RowRec,
      (∀ t ∈ UtilsPostprocess._normalise_diarisation_turns rows,
        0 ≤ t.start ∧ t.start < t.stop) ∧
      List.Sorted turnLe (UtilsPostprocess._normalise_diarisation_turns rows) := by
  refine ⟨⟨?_, ?_⟩, ?_⟩
  · rfl
  · intro t ht
    simp only [List.mem_singleton] at ht
    subst ht
    norm_num
  · intro rows
    refine ⟨?_, normalise_sorted rows⟩
    intro t ht
    have hmem : t ∈ UtilsPostprocess._normalise_diarisation_turns.collect rows := by
      have := List.perm_insertionSort turnLe
        (UtilsPostprocess._normalise_diarisation_turns.collect rows)
      exact this.mem_iff.mp ht
    exact normalise_collect_invariant rows t hmem

/-! ## C1: the utils_functions backfill discards the resolver's label -/

/-- Concrete resolver evaluation used by the C1 failing input: the word
interval `(0.5, 1)` against the single normalized turn `[0, 1)ᴬ` resolves to
`"A"` (overlap `0.5`). -/
theorem default_speaker_half :
    _default_speaker_for_interval (1 / 2) 1 [⟨0, 1, "A"⟩] = some "A" := by
  unfold _default_speaker_for_interval
  rw [List.foldl_cons, List.foldl_nil]
  dsimp only
  rw [if_neg (by rw [show ((1 : ℚ) ⊓ 1) = 1 from min_self 1]; norm_num [max_def])]
  rw [if_pos (by rw [show ((1 : ℚ) ⊓ 1) = 1 from min_self 1]; norm_num [max_def])]

/-- The word loop of the `utils_functions` backfill on the failing input:
the first word is pre-labelled `"B"`; the second word's own interval
resolves to `"A"`, but lines 282-283 discard that label and assign the
previous word's `"B"`. -/
theorem fill_words_uf_failing :
    UtilsFunctions.fill_words [⟨0, 1, "A"⟩]
      [⟨PyVal.num 0, PyVal.num (1 / 2), PyVal.str "hi", some "B"⟩,
       ⟨PyVal.num (1 / 2), PyVal.num 1, PyVal.str "there", Option.none⟩] Option.none
    = [⟨PyVal.num 0, PyVal.num (1 / 2), PyVal.str "hi", some "B"⟩,
       ⟨PyVal.num (1 / 2), PyVal.num 1, PyVal.str "there", some "B"⟩] := by
  rw [UtilsFunctions.fill_words]
  dsimp only [speaker_truthy]
  rw [if_pos (by decide)]
  rw [UtilsFunctions.fill_words]
  dsimp only [speaker_truthy]
  rw [if_neg (by decide)]
  rw [default_speaker_half]
  dsimp only
  rw [UtilsFunctions.fill_words]

/-- C1: evaluation at the failing input.  Diarization: one turn
`{start: 0, end: 1, speaker: "A"}`; alignment: one segment with word
`"hi" (0, 0.5)` pre-labelled `"B"` and word `"there" (0.5, 1)` without a
speaker.  The resolver yields `"A"` for the second word's own interval, yet
the backfill writes the previous word's `"B"` — the `else` branch of
`_fill_missing_word_speakers` (utils_functions line 283) unconditionally
overwrites the resolver's result, contradicting the claim (and the
function's own docstring); the `utils_postprocess` rewrite
(`fill_missing_word_speakers`, exercised under C10) keeps the resolver's
label. -/
theorem c1_resolver_label_discarded :
    UtilsFunctions._normalize_diarization_turns
        (DiarizationResult.dictSegs [⟨PyVal.num 0, PyVal.num 1, some (PyVal.str "A"), Option.none⟩])
      = .ok [⟨0, 1, "A"⟩] ∧
    _default_speaker_for_interval (1 / 2) 1 [⟨0, 1, "A"⟩] = some "A" ∧
    UtilsFunctions._fill_missing_word_speakers
        ⟨SegmentsField.list [⟨WordsField.list
          [⟨PyVal.num 0, PyVal.num (1 / 2), PyVal.str "hi", some "B"⟩,
           ⟨PyVal.num (1 / 2), PyVal.num 1, PyVal.str "there", Option.none⟩]⟩]⟩
        (DiarizationResult.dictSegs [⟨PyVal.num 0, PyVal.num 1, some (PyVal.str "A"), Option.none⟩])
      = .ok ⟨SegmentsField.list [⟨WordsField.list
          [⟨PyVal.num 0, PyVal.num (1 / 2), PyVal.str "hi", some "B"⟩,
           ⟨PyVal.num (1 / 2), PyVal.num 1, PyVal.str "there", some "B"⟩]⟩]⟩ := by
  have hnorm : UtilsFunctions._normalize_diarization_turns
      (DiarizationResult.dictSegs [⟨PyVal.num 0, PyVal.num 1, some (PyVal.str "A"), Option.none⟩])
      = .ok [⟨0, 1, "A"⟩] := rfl
  refine ⟨hnorm, default_speaker_half, ?_⟩
  show Except.ok (⟨SegmentsField.list [⟨WordsField.list (UtilsFunctions.fill_words [⟨0, 1, "A"⟩]
      [⟨PyVal.num 0, PyVal.num (1 / 2), PyVal.str "hi", some "B"⟩,
       ⟨PyVal.num (1 / 2), PyVal.num 1, PyVal.str "there", Option.none⟩] Option.none)⟩]⟩ : AlignmentResult) = _
  rw [fill_words_uf_failing]

/-! ## C10: the backfill's frame, and helpers shared with C7 -/

/-- Each word returned by the `utils_postprocess` word loop is frame-related
to the input word: times and text unchanged, an existing non-empty speaker
kept. -/
theorem fill_words_frame (idx : ℤ → List (ℕ × SpeakerSegment)) :
    ∀ (ws : List WordEntry) (prev : Option String),
      List.Forall₂ word_frame ws (UtilsPostprocess.fill_words idx ws prev) := by
  intro ws
  induction ws with
  | nil =>
      intro prev
      rw [UtilsPostprocess.fill_words]
      exact List.Forall₂.nil
  | cons w rest ih =>
      intro prev
      rw [UtilsPostprocess.fill_words]
      split
      · split
        · exact List.Forall₂.cons ⟨rfl, rfl, rfl, fun _ => rfl⟩ (ih _)
        · rename_i hsp
          dsimp only
          split
          · exact List.Forall₂.cons ⟨rfl, rfl, rfl, fun _ => rfl⟩ (ih _)
          · exact List.Forall₂.cons ⟨rfl, rfl, rfl, fun h => absurd h hsp⟩ (ih _)
      · exact List.Forall₂.cons ⟨rfl, rfl, rfl, fun _ => rfl⟩ (ih _)

/-- The per-segment update of `fill_missing_word_speakers` is frame-related
to the input segment. -/
theorem fill_seg_frame (idx : ℤ → List (ℕ × SpeakerSegment)) (seg : SegmentRec) :
    seg_frame seg (match seg.words with
      | WordsField.list ws =>
          (⟨WordsField.list (UtilsPostprocess.fill_words idx ws Option.none)⟩ : SegmentRec)
      | _ => seg) := by
  cases hw : seg.words with
  | list ws =>
      unfold seg_frame
      rw [hw]
      exact ⟨UtilsPostprocess.fill_words idx ws Option.none, rfl, fill_words_frame idx ws Option.none⟩
  | falsyNonList =>
      unfold seg_frame
      rw [hw]
  | truthyNonList =>
      unfold seg_frame
      rw [hw]

theorem forall₂_map_self {α : Type _} (f : α → α) (R : α → α → Prop) :
    ∀ l : List α, (∀ a ∈ l, R a (f a)) → List.Forall₂ R l (l.map f) := by
  intro l
  induction l with
  | nil => intro _; exact List.Forall₂.nil
  | cons a t ih =>
      intro h
      exact List.Forall₂.cons (h a (List.mem_cons_self a t))
        (ih (fun x hx => h x (List.mem_cons_of_mem a hx)))

/-- The `utils_postprocess` backfill on a list-shaped payload: it succeeds
and returns a payload whose segments are pointwise frame-related to the
input's. -/
theorem fill_missing_frame_list (rows : List RowRec) (segs : List SegmentRec) :
    ∃ segs', UtilsPostprocess.fill_missing_word_speakers ⟨SegmentsField.list segs⟩ rows
      = .ok ⟨SegmentsField.list segs'⟩ ∧ List.Forall₂ seg_frame segs segs' := by
  have hfill : UtilsPostprocess.fill_missing_word_speakers ⟨SegmentsField.list segs⟩ rows
      = .ok ⟨SegmentsField.list (segs.map (fun seg =>
          match seg.words with
          | WordsField.list ws =>
              (⟨WordsField.list (UtilsPostprocess.fill_words
                (_build_turn_index (UtilsPostprocess._normalise_diarisation_turns rows))
                ws Option.none)⟩ : SegmentRec)
          | _ => seg))⟩ := rfl
  exact ⟨_, hfill, forall₂_map_self _ _ segs (fun seg _ => fill_seg_frame _ seg)⟩

/-- C10: the speaker backfill mutates at most word `speaker` fields — on any
list-shaped alignment payload it succeeds, preserves the number and order of
segments and of the words within each segment, keeps every word's `start`,
`end` and `word` values, leaves non-list `words` fields untouched, and never
overwrites an already present non-empty word speaker. -/
theorem c10_backfill_frame (rows : List RowRec) (segs : List SegmentRec) :
    ∃ segs', UtilsPostprocess.fill_missing_word_speakers ⟨SegmentsField.list segs⟩ rows
      = .ok ⟨SegmentsField.list segs'⟩ ∧ List.Forall₂ seg_frame segs segs' :=
  fill_missing_frame_list rows segs

/-! ## C7: the assembly entry point's error contract -/

/-- A word failing the well-formedness test contributes nothing to the
collected word stream. -/
theorem collect_words_cons_invalid (w : WordEntry) (l : List WordEntry)
    (h : source_valid_word w = false) :
    UtilsPipeline.collect_words (w :: l) = UtilsPipeline.collect_words l := by
  rw [UtilsPipeline.collect_words]
  split
  · simp_all [source_valid_word, is_number, is_pystr]
  · rfl

/-- Backfilled variants of all-invalid words collect to the empty stream
(the backfill preserves the fields the validity test probes). -/
theorem collect_words_nil_of_frame :
    ∀ {ws ws' : List WordEntry}, List.Forall₂ word_frame ws ws' →
      (∀ w ∈ ws, source_valid_word w = false) →
      UtilsPipeline.collect_words ws' = [] := by
  intro ws ws' hf
  induction hf with
  | nil => intro _; rfl
  | @cons w w' rest rest' hw hrest ih =>
      intro h
      have hvalid : source_valid_word w' = false := by
        rw [source_valid_word, hw.1, hw.2.1, hw.2.2.1]
        exact h w (List.mem_cons_self w rest)
      rw [collect_words_cons_invalid w' rest' hvalid]
      exact ih (fun x hx => h x (List.mem_cons_of_mem w hx))

/-- A payload with no valid words still has none after the backfill: the
whole collection pass returns the empty stream. -/
theorem collect_entries_nil :
    ∀ {segs segs' : List SegmentRec}, List.Forall₂ seg_frame segs segs' →
      no_valid_words segs → UtilsPipeline.collect_word_entries segs' = [] := by
  intro segs segs' hf
  induction hf with
  | nil => intro _; rfl
  | @cons s s' rest rest' hs hrest ih =>
      intro h
      rw [UtilsPipeline.collect_word_entries]
      have hrest_nil := ih (fun seg hseg ws hws w hw => h seg (List.mem_cons_of_mem s hseg) ws hws w hw)
      rw [hrest_nil]
      unfold seg_frame at hs
      cases hw : s.words with
      | list ws =>
          rw [hw] at hs
          dsimp only at hs
          obtain ⟨ws', hws', hfw⟩ := hs
          rw [hws']
          dsimp only
          rw [collect_words_nil_of_frame hfw
            (fun w hwmem => h s (List.mem_cons_self s rest) ws hw w hwmem)]
          rfl
      | falsyNonList =>
          rw [hw] at hs
          dsimp only at hs
          rw [hs]
          rfl
      | truthyNonList =>
          rw [hw] at hs
          dsimp only at hs
          rw [hs]
          rfl

/-- `postprocess_segments` on a list-shaped payload, computed: the backfill
succeeds, and the pipeline runs on the backfilled segments. -/
theorem postprocess_list (rows : List RowRec) (segs : List SegmentRec) :
    UtilsPipeline.postprocess_segments rows ⟨SegmentsField.list segs⟩ =
      (let merged := UtilsPipeline.second_merge_pass UtilsPipeline._SPEAKER_GAP_THRESHOLD
          (UtilsPipeline.first_pass UtilsPipeline._SPEAKER_GAP_THRESHOLD
            (List.insertionSort (fun a b : UtilsPipeline.NWord => a.start ≤ b.start)
              (UtilsPipeline.collect_word_entries (segs.map (fun seg =>
                match seg.words with
                | WordsField.list ws =>
                    (⟨WordsField.list (UtilsPostprocess.fill_words
                      (_build_turn_index (UtilsPostprocess._normalise_diarisation_turns rows))
                      ws Option.none)⟩ : SegmentRec)
                | _ => seg))))
            Option.none [] [])
      Except.ok (merged, String.intercalate "\n" (merged.map UtilsPipeline.format_line))) := rfl

/-- C7: the assembly entry point returns an error (a `TranscriptionError`)
exactly when the payload's `segments` value is not a list; word records
failing the well-formedness test are dropped rather than raised on, and a
list-shaped payload none of whose word records is valid produces the empty
utterance list and the empty formatted transcript. -/
theorem c7_structural_error_contract (rows : List RowRec) (payload : AlignmentResult) :
    ((UtilsPipeline.postprocess_segments rows payload).isOk = true
        ↔ segments_is_list payload = true) ∧
    (∀ segs, payload.segments = SegmentsField.list segs → no_valid_words segs →
      UtilsPipeline.postprocess_segments rows payload = .ok ([], "")) := by
  obtain ⟨sf⟩ := payload
  cases sf with
  | truthyNonList =>
      constructor
      · have h : UtilsPipeline.postprocess_segments rows ⟨SegmentsField.truthyNonList⟩
            = .error "TranscriptionError: alignment_result must contain a segments list" := rfl
        rw [h]
        simp [Except.isOk, Except.toBool, segments_is_list]
      · intro segs hseg
        exact absurd hseg (by simp)
  | falsyNonList =>
      constructor
      · have h : UtilsPipeline.postprocess_segments rows ⟨SegmentsField.falsyNonList⟩
            = .error "TranscriptionError: alignment_result must contain a segments list" := rfl
        rw [h]
        simp [Except.isOk, Except.toBool, segments_is_list]
      · intro segs hseg
        exact absurd hseg (by simp)
  | list segs0 =>
      constructor
      · rw [postprocess_list]
        simp [Except.isOk, Except.toBool, segments_is_list]
      · intro segs hseg hnov
        have hs : segs0 = segs := by
          simpa using hseg
        subst hs
        rw [postprocess_list]
        have hframe : List.Forall₂ seg_frame segs0 (segs0.map (fun seg =>
            match seg.words with
            | WordsField.list ws =>
                (⟨WordsField.list (UtilsPostprocess.fill_words
                  (_build_turn_index (UtilsPostprocess._normalise_diarisation_turns rows))
                  ws Option.none)⟩ : SegmentRec)
            | _ => seg)) :=
          forall₂_map_self _ _ segs0 (fun seg _ => fill_seg_frame _ seg)
        have hcoll := collect_entries_nil hframe hnov
        rw [hcoll]
        rfl

/-! ## C6: totality of the capability-probing turn normalizer -/

theorem py_float_ok (v : PyVal) (hv : val_ok v = true) (hne : v ≠ PyVal.none) :
    ∃ x, py_float v = .ok x := by
  cases v with
  | none => exact absurd rfl hne
  | num q => exact ⟨.fin q, rfl⟩
  | nf => exact ⟨.nf, rfl⟩
  | str s => simp [val_ok] at hv
  | obj => simp [val_ok] at hv

theorem extract_tracks_ok (ts : List TrackRec)
    (h : ∀ t ∈ ts, val_ok t.start ∧ val_ok t.stop) :
    ∃ raw, UtilsFunctions.extract_tracks ts = .ok raw := by
  induction ts with
  | nil => exact ⟨[], rfl⟩
  | cons t rest ih =>
      obtain ⟨raw, hraw⟩ := ih (fun x hx => h x (List.mem_cons_of_mem t hx))
      by_cases hn : t.start = PyVal.none ∨ t.stop = PyVal.none
      · refine ⟨raw, ?_⟩
        unfold UtilsFunctions.extract_tracks
        rw [if_pos hn]
        exact hraw
      · push_neg at hn
        obtain ⟨s, hs⟩ := py_float_ok t.start (h t (List.mem_cons_self t rest)).1 hn.1
        obtain ⟨e, he⟩ := py_float_ok t.stop (h t (List.mem_cons_self t rest)).2 hn.2
        refine ⟨⟨s, e, py_str t.speaker_label⟩ :: raw, ?_⟩
        unfold UtilsFunctions.extract_tracks
        rw [if_neg (by intro hor; exact absurd hor (by simp [hn.1, hn.2]))]
        simp only [hs, he, hraw]
        rfl

theorem extract_rows_ok (rs : List RowRec)
    (h : ∀ r ∈ rs, val_ok r.start ∧ val_ok r.stop) :
    ∃ raw, UtilsFunctions.extract_rows rs = .ok raw := by
  induction rs with
  | nil => exact ⟨[], rfl⟩
  | cons r rest ih =>
      obtain ⟨raw, hraw⟩ := ih (fun x hx => h x (List.mem_cons_of_mem r hx))
      by_cases hn : r.start = PyVal.none ∨ r.stop = PyVal.none
      · refine ⟨raw, ?_⟩
        unfold UtilsFunctions.extract_rows
        rw [if_pos hn]
        exact hraw
      · push_neg at hn
        obtain ⟨s, hs⟩ := py_float_ok r.start (h r (List.mem_cons_self r rest)).1 hn.1
        obtain ⟨e, he⟩ := py_float_ok r.stop (h r (List.mem_cons_self r rest)).2 hn.2
        refine ⟨⟨s, e, py_str (row_label_with_default r)⟩ :: raw, ?_⟩
        unfold UtilsFunctions.extract_rows
        rw [if_neg (by intro hor; exact absurd hor (by simp [hn.1, hn.2]))]
        simp only [hs, he, hraw]
        rfl

theorem extract_dict_ok (rs : List RowRec)
    (h : ∀ r ∈ rs, val_ok r.start ∧ val_ok r.stop) :
    ∃ raw, UtilsFunctions.extract_dict rs = .ok raw := by
  induction rs with
  | nil => exact ⟨[], rfl⟩
  | cons r rest ih =>
      obtain ⟨raw, hraw⟩ := ih (fun x hx => h x (List.mem_cons_of_mem r hx))
      by_cases hn : r.start = PyVal.none ∨ r.stop = PyVal.none
      · refine ⟨raw, ?_⟩
        unfold UtilsFunctions.extract_dict
        rw [if_pos hn]
        exact hraw
      · push_neg at hn
        obtain ⟨s, hs⟩ := py_float_ok r.start (h r (List.mem_cons_self r rest)).1 hn.1
        obtain ⟨e, he⟩ := py_float_ok r.stop (h r (List.mem_cons_self r rest)).2 hn.2
        refine ⟨⟨s, e, py_str (row_label_or_chain r)⟩ :: raw, ?_⟩
        unfold UtilsFunctions.extract_dict
        rw [if_neg (by intro hor; exact absurd hor (by simp [hn.1, hn.2]))]
        simp only [hs, he, hraw]
        rfl

/-- C6, counterexample: the claim's "never raises" fails — a plain-dict
diarization record whose `start` is a non-float-convertible object makes
`float(start_value)` raise a `TypeError` that escapes
`_normalize_diarization_turns` instead of the record being dropped. -/
theorem c6_counterexample :
    UtilsFunctions._normalize_diarization_turns
        (DiarizationResult.dictSegs [⟨PyVal.obj, PyVal.num 1, Option.none, Option.none⟩])
      = .error "TypeError: float() argument must be a string or a real number" := rfl

/-- C6 (amended): the capability-probing normalizer never raises on inputs
whose records carry missing (`None`) or numeric (possibly non-finite)
`start`/`end` values — such records are dropped, not raised on — and `None`
or unrecognized inputs yield the empty turn list; but a record whose
`start`/`end` is not float-convertible raises (see `c6_counterexample`). -/
theorem c6_normalizer_total_on_numeric (d : DiarizationResult)
    (hb : benign_diarization d) :
    (∃ turns, UtilsFunctions._normalize_diarization_turns d = .ok turns) ∧
    UtilsFunctions._normalize_diarization_turns DiarizationResult.noneV = .ok [] ∧
    UtilsFunctions._normalize_diarization_turns DiarizationResult.unrecognized = .ok [] := by
  refine ⟨?_, rfl, rfl⟩
  cases d with
  | noneV => exact ⟨[], rfl⟩
  | unrecognized => exact ⟨[], rfl⟩
  | tracks ts =>
      obtain ⟨raw, hraw⟩ := extract_tracks_ok ts hb
      refine ⟨sortTurns (UtilsFunctions.clean_turns raw), ?_⟩
      simp only [UtilsFunctions._normalize_diarization_turns, hraw]
      rfl
  | rows rs =>
      obtain ⟨raw, hraw⟩ := extract_rows_ok rs hb
      refine ⟨sortTurns (UtilsFunctions.clean_turns raw), ?_⟩
      simp only [UtilsFunctions._normalize_diarization_turns, hraw]
      rfl
  | dictSegs rs =>
      obtain ⟨raw, hraw⟩ := extract_dict_ok rs hb
      refine ⟨sortTurns (UtilsFunctions.clean_turns raw), ?_⟩
      simp only [UtilsFunctions._normalize_diarization_turns, hraw]
      rfl

/-- C6, witness: a row-shaped input mixing a valid record, a record with a
missing start and a record with a non-finite start. -/
theorem c6_normalizer_total_witness :
    benign_diarization (DiarizationResult.rows
      [⟨PyVal.num 1, PyVal.num 2, Option.none, Option.none⟩,
       ⟨PyVal.none, PyVal.num 3, Option.none, Option.none⟩,
       ⟨PyVal.nf, PyVal.num 1, Option.none, Option.none⟩]) ∧
    ((∃ turns, UtilsFunctions._normalize_diarization_turns (DiarizationResult.rows
      [⟨PyVal.num 1, PyVal.num 2, Option.none, Option.none⟩,
       ⟨PyVal.none, PyVal.num 3, Option.none, Option.none⟩,
       ⟨PyVal.nf, PyVal.num 1, Option.none, Option.none⟩]) = .ok turns) ∧
     UtilsFunctions._normalize_diarization_turns DiarizationResult.noneV = .ok [] ∧
     UtilsFunctions._normalize_diarization_turns DiarizationResult.unrecognized = .ok []) := by
  have hb : benign_diarization (DiarizationResult.rows
      [⟨PyVal.num 1, PyVal.num 2, Option.none, Option.none⟩,
       ⟨PyVal.none, PyVal.num 3, Option.none, Option.none⟩,
       ⟨PyVal.nf, PyVal.num 1, Option.none, Option.none⟩]) := by
    intro r hr
    rcases List.mem_cons.mp hr with h | hr
    · subst h; exact ⟨rfl, rfl⟩
    rcases List.mem_cons.mp hr with h | hr
    · subst h; exact ⟨rfl, rfl⟩
    rcases List.mem_cons.mp hr with h | hr
    · subst h; exact ⟨rfl, rfl⟩
    · simp at hr
  exact ⟨hb, c6_normalizer_total_on_numeric _ hb⟩

/-- C8, witness: instantiating `c8_spacing` at `prev = "hi "`,
`next = " there"`. -/
theorem c8_spacing_witness :
    ((pyRstrip "hi ").data.getLast? = some 'i') ∧
    ((pyLstrip " there").data.head? = some 't') ∧
    ('i' ∈ openingChars → merge_text "hi " " there" = pyRstrip "hi " ++ pyLstrip " there") ∧
    ('i' ∉ openingChars → 't' ∈ leadingPunctuationChars →
      merge_text "hi " " there" = pyRstrip "hi " ++ pyLstrip " there") ∧
    ('i' ∉ openingChars → 't' ∉ leadingPunctuationChars →
      merge_text "hi " " there" = pyRstrip "hi " ++ " " ++ pyLstrip " there") :=
  ⟨by decide, by decide, c8_spacing "hi " " there" 'i' 't' (by decide) (by decide)⟩

end Transcription

